import Mathlib

/-!
# Harvest: dedup store, fingerprints and storage layout

A shallow embedding of the Reddit harvest drivers
(`cmd/submissions/main.go`, `cmd/comments/main.go`) and of the layout
package (`internal/layout/layout.go`).

Go strings are embedded as `String`; every operation is defined on the
underlying character list so that it evaluates in the kernel.  Go compares
strings byte-wise, which for UTF-8 text is the code point order used here.
-/

namespace Harvest

/-! ## Go standard library: `strings`, `sort`, `path/filepath` -/

namespace strings

/-- Go `strings.HasSuffix(s, suffix)`. -/
def HasSuffix (s suffix : String) : Bool :=
  decide (suffix.data <:+ s.data)

/-- Go `strings.Contains(s, substr)`. -/
def Contains (s substr : String) : Bool :=
  decide (substr.data <:+: s.data)

/-- Go `strings.TrimSuffix(s, suffix)`. -/
def TrimSuffix (s suffix : String) : String :=
  if HasSuffix s suffix then ⟨s.data.take (s.data.length - suffix.data.length)⟩ else s

end strings

namespace sort

/-- Go `sort.Strings`: ascending lexicographic order. -/
def Strings (l : List String) : List String :=
  l.insertionSort (fun a b => a.data ≤ b.data)

end sort

namespace filepath

/-- Cut a path at every separator `/`; `acc` holds the current element reversed. -/
def splitSep (acc : List Char) : List Char → List (List Char)
  | [] => [acc.reverse]
  | c :: cs => if c = '/' then acc.reverse :: splitSep [] cs else splitSep (c :: acc) cs

/-- One element of the lexical processing of `Clean`; `out` is the stack of kept
elements, innermost first. -/
def cleanStep (rooted : Bool) (out : List (List Char)) (el : List Char) : List (List Char) :=
  if el = [] ∨ el = ['.'] then out
  else if el = ['.', '.'] then
    match out with
    | top :: rest => if top = ['.', '.'] then el :: out else rest
    | [] => if rooted then [] else [el]
  else el :: out

/-- Go `filepath.Clean` for the Unix separator: drops empty and `.` elements,
resolves inner `..`, drops `..` at the root, and returns `.` for an empty
result. -/
def Clean (path : String) : String :=
  if path.data = [] then "."
  else
    let rooted := decide (path.data.head? = some '/')
    let out := ((splitSep [] path.data).foldl (cleanStep rooted) []).reverse
    let body := List.intercalate ['/'] out
    if rooted then ⟨'/' :: body⟩ else if body = [] then "." else ⟨body⟩

/-- Go `filepath.Join`: from the first non-empty element on, the elements are
joined by `/` and the result is cleaned; no non-empty element gives `""`. -/
def Join (elem : List String) : String :=
  match elem.dropWhile (fun e => decide (e.data = [])) with
  | [] => ""
  | rest => Clean ⟨List.intercalate ['/'] (rest.map String.data)⟩

/-- Go `filepath.Base`: the last element of the path, trailing separators removed. -/
def Base (path : String) : String :=
  if path.data = [] then "."
  else
    let stripped := path.data.reverse.dropWhile (fun c => decide (c = '/'))
    let last := (stripped.takeWhile (fun c => decide (c ≠ '/'))).reverse
    if last = [] then "/" else ⟨last⟩

end filepath

/-! ## Dedup store (`hasHashFile` and the exclusive create) -/

/-- A directory entry as `os.ReadDir` reports it. -/
structure DirEntry where
  Name : String
  IsDir : Bool
deriving DecidableEq, Repr

/-- The outcome of `os.ReadDir(dir)`. -/
inductive ReadDirResult where
  | ok (ents : List DirEntry)
  | notExist
  | failed (err : String)
deriving DecidableEq, Repr

/-- The candidate names collected by the loop of `hasHashFile`. -/
def hashCandidates (ents : List DirEntry) (hash : String) : List String :=
  ents.filterMap (fun e =>
    if e.IsDir then none
    else if strings.HasSuffix e.Name ".jsonl" && strings.Contains e.Name ("_" ++ hash)
    then some e.Name else none)

/-- The function `hasHashFile(dir, hash)` of both drivers (the two copies are
identical); `rd` is what `os.ReadDir(dir)` returned.  The result is
`(found, path, err)`. -/
def hasHashFile (rd : ReadDirResult) (dir hash : String) : Bool × String × Option String :=
  match rd with
  | .notExist => (false, "", none)
  | .failed err => (false, "", some err)
  | .ok ents =>
    let cand := hashCandidates ents hash
    if cand.length = 0 then (false, "", none)
    else (true, filepath.Join [dir, (sort.Strings cand).getLastD ""], none)

/-- The call `os.OpenFile(out, O_CREATE|O_WRONLY|O_EXCL, 0o644)` on a directory with
listing `d`, for the base name `name`: `none` is the error EEXIST (any entry,
file or directory, already has the name), otherwise the listing gains a file. -/
def openExcl (d : List DirEntry) (name : String) : Option (List DirEntry) :=
  if d.any (fun e => decide (e.Name = name)) then none
  else some (d ++ [⟨name, false⟩])

/-- The state of an entity directory: it does not exist, or it exists with the
entries `d`, and `os.ReadDir` on it succeeds (`listErr = none`) or fails with an
error other than not-exist (a directory that can be written but not listed). -/
inductive DirState where
  | missing
  | present (d : List DirEntry) (listErr : Option String)
deriving DecidableEq, Repr

/-- The entries of the directory. -/
def DirState.entries : DirState → List DirEntry
  | .missing => []
  | .present d _ => d

/-- The call `os.ReadDir(dir)` on a directory in the given state. -/
def DirState.readDir : DirState → ReadDirResult
  | .missing => .notExist
  | .present d none => .ok d
  | .present _ (some err) => .failed err

/-- The directory is missing or can be listed. -/
def DirState.listable : DirState → Bool
  | .present _ (some _) => false
  | _ => true

/-- The call `os.MkdirAll(dir, 0o755)`, taken to succeed. -/
def mkdirAll : DirState → DirState
  | .missing => .present [] none
  | s => s

/-- What the per-entity step did: the hash was found, the exclusive create met
EEXIST, the file was written, or the create failed for another reason. -/
inductive StepOutcome where
  | skipFound
  | skipExists
  | wrote
  | openError
deriving DecidableEq, Repr

/-- The base name of the snapshot file a driver writes. -/
def snapshotName (nowStr h : String) : String :=
  nowStr ++ "_" ++ h ++ ".jsonl"

/-- The dedup step shared by both drivers, on the state `s` of the entity
directory: `ok, _, _ := hasHashFile(dir, h)`, whose path and error are discarded,
and when `ok` is false the exclusive create of `nowStr_h.jsonl`, where EEXIST is a
skip.  In a missing directory the create fails.  The timestamp and the
fingerprint hold no path separator, so the file is an entry of the entity
directory. -/
def dedupStep (dir : String) (s : DirState) (nowStr h : String) : DirState × StepOutcome :=
  if (hasHashFile s.readDir dir h).1 then (s, .skipFound)
  else
    match s with
    | .missing => (s, .openError)
    | .present d listErr =>
      match openExcl d (snapshotName nowStr h) with
      | none => (s, .skipExists)
      | some d1 => (.present d1 listErr, .wrote)

/-- Decimal digits, as `time.Format` writes a capture timestamp. -/
def isDigits (s : String) : Bool :=
  s.data.all (fun c => decide (c ∈ "0123456789".data))

/-- A fingerprint: 64 lowercase hexadecimal characters, as
`hex.EncodeToString` writes a SHA-256 sum. -/
def isFingerprint (s : String) : Bool :=
  decide (s.data.length = 64) && s.data.all (fun c => decide (c ∈ "0123456789abcdef".data))

/-- The snapshot files of the listing whose name carries the fingerprint `f`. -/
def snapshotsOf (d : List DirEntry) (f : String) : List DirEntry :=
  d.filter (fun e =>
    !e.IsDir && strings.HasSuffix e.Name ".jsonl" && strings.Contains e.Name ("_" ++ f))

/-- The dedup invariant: at most one snapshot file per fingerprint value. -/
def DedupInv (d : List DirEntry) : Prop :=
  ∀ f : String, isFingerprint f = true → (snapshotsOf d f).length ≤ 1

/-- The entries the contract of `hasHashFile` speaks of: a non-directory entry
whose name ends in `.jsonl` and contains `_` followed by the hash. -/
def MatchesHash (e : DirEntry) (hash : String) : Prop :=
  e.IsDir = false ∧ (∃ p : String, e.Name = p ++ ".jsonl") ∧
    ∃ a b : String, e.Name = a ++ ("_" ++ hash) ++ b

/-! ## Go standard library: `time` (UTC calendar and the layouts used) -/

namespace gotime

/-- A broken-down UTC time, as `time.Unix(unix, 0).UTC()` presents it. -/
structure Time where
  year : Int
  month : Int
  day : Int
  hour : Int
  minute : Int
  second : Int
deriving DecidableEq, Repr

/-- The proleptic Gregorian date of a day number counted from 1970-01-01, as
`(year, month, day)`.  The count is shifted to 0000-03-01, then cut into
400-year eras, centuries, 4-year cycles and years that begin in March. -/
def civil (days : Int) : Int × Int × Int :=
  let z := days + 719468
  let era := z / 146097
  let doe := z % 146097
  let c := min (doe / 36524) 3
  let r1 := doe - 36524 * c
  let q := r1 / 1461
  let r2 := r1 - 1461 * q
  let a := min (r2 / 365) 3
  let doy := r2 - 365 * a
  let mp := (5 * doy + 2) / 153
  let d := doy - (153 * mp + 2) / 5 + 1
  let m := if mp < 10 then mp + 3 else mp - 9
  let y := 400 * era + 100 * c + 4 * q + a
  (if m ≤ 2 then y + 1 else y, m, d)

/-- The day number of a Gregorian date, counted from 1970-01-01. -/
def daysFromCivil (year month day : Int) : Int :=
  let y := if month ≤ 2 then year - 1 else year
  let era := y / 400
  let yoe := y % 400
  let mp := if month > 2 then month - 3 else month + 9
  let doy := (153 * mp + 2) / 5 + day - 1
  let doe := yoe * 365 + yoe / 4 - yoe / 100 + doy
  era * 146097 + doe - 719468

/-- Go `time.Unix(unix, 0).UTC()`, for the instants package time represents
without wrapping its 64-bit counters (they include every year from 1970 to
9999); beyond them Go's result wraps and this definition does not follow it. -/
def UnixUTC (unix : Int) : Time :=
  let date := civil (unix / 86400)
  let secs := unix % 86400
  ⟨date.1, date.2.1, date.2.2, secs / 3600, secs % 3600 / 60, secs % 60⟩

/-- The integer fields of `Time.Format` (`appendInt` of package time): the decimal
digits of `x`, zero-padded to at least `width` digits, after a minus sign when
`x` is negative. -/
def appendInt (x : Int) (width : Nat) : String :=
  let ds := Nat.toDigits 10 x.natAbs
  ⟨(if x < 0 then ['-'] else []) ++ List.replicate (width - ds.length) '0' ++ ds⟩

/-- The layout `"2006"`. -/
def format2006 (t : Time) : String := appendInt t.year 4

/-- The layout `"0102"`. -/
def format0102 (t : Time) : String := appendInt t.month 2 ++ appendInt t.day 2

/-- The layout `"150405"`. -/
def format150405 (t : Time) : String :=
  appendInt t.hour 2 ++ appendInt t.minute 2 ++ appendInt t.second 2

/-- The layout `"060102150405"` of the submissions driver; the two-digit year is
the absolute value of the year modulo 100. -/
def format060102150405 (t : Time) : String :=
  appendInt ((t.year.natAbs % 100 : Nat) : Int) 2 ++ format0102 t ++ format150405 t

/-- The layout `"20060102150405"` of the comments driver. -/
def format20060102150405 (t : Time) : String :=
  format2006 t ++ format0102 t ++ format150405 t

end gotime

/-! ## Package `layout` -/

namespace layout

/-- The function `Base(root, sub)`. -/
def Base (root sub : String) : String :=
  filepath.Join [root, "r_" ++ sub]

/-- The function `SplitUTC(unix)`. -/
def SplitUTC (unix : Int) : String × String × String :=
  let t := gotime.UnixUTC unix
  (gotime.format2006 t, gotime.format0102 t, gotime.format150405 t)

/-- The function `ThreadRel(createdUnix, id)`. -/
def ThreadRel (createdUnix : Int) (id : String) : String :=
  let (y, md, hms) := SplitUTC createdUnix
  filepath.Join [y, md, hms ++ "_" ++ id]

end layout

/-- The decimal numeral of exactly `width` digits for `n`, zero-padded on the
left (the digits of `n` modulo `10 ^ width`). -/
def fixedDec (width n : Nat) : String :=
  ⟨(List.range width).reverse.map (fun i => Nat.digitChar (n / 10 ^ i % 10))⟩

/-! ## Decoded JSON values and the fingerprints -/

/-- A value of Go type `any` as `json.Unmarshal` stores it: `nil`, `bool`,
`float64`, `string`, `[]any` or `map[string]any`.  The type `F` stands for the
`float64` values. -/
inductive Any (F : Type) where
  | nil
  | bool (b : Bool)
  | float64 (f : F)
  | string (s : String)
  | slice (l : List (Any F))
  | map (m : List (String × Any F))

/-- A `map[string]any`, as the list of its bindings. -/
abbrev GoMap (F : Type) := List (String × Any F)

/-- The two-valued index expression `v, ok := m[k]`. -/
def GoMap.lookup {F : Type} (m : GoMap F) (k : String) : Option (Any F) :=
  List.lookup k m

/-- The index expression `m[k]`: the zero value `nil` for a missing key. -/
def GoMap.index {F : Type} (m : GoMap F) (k : String) : Any F :=
  (m.lookup k).getD Any.nil

/-- The helper `getS` of both drivers. -/
def getS {F : Type} (v : Any F) : String :=
  match v with
  | .string s => s
  | _ => ""

/-- The helper `getB` of the submissions driver. -/
def getB {F : Type} (v : Any F) : Bool :=
  match v with
  | .bool b => b
  | _ => false

/-- The helper `getF` of the comments driver.  The `json.Number` case cannot
arise: the decoder is used without `UseNumber`. -/
def getF {F : Type} [Zero F] (v : Any F) : F :=
  match v with
  | .float64 t => t
  | _ => 0

/-- The struct `fp` of the submissions driver: the canonical view of a submission. -/
structure fp (F : Type) where
  ID : String
  Name : String
  Subreddit : String
  Author : String
  IsSelf : Bool
  Domain : String
  Title : String
  SelftextHTML : String
  Selftext : String
  URL : String
  Permalink : String
  Edited : Any F
  Over18 : Bool
  Spoiler : Bool
  Locked : Bool
  Stickied : Bool
  LinkFlairText : String
  LinkFlairCSSClass : String

/-- The struct `mini` of `threadHash`: the canonical view of one comment. -/
structure mini (F : Type) where
  ID : String
  Parent : String
  Author : String
  Body : String
  BodyHTML : String
  Edited : Any F
  Stickied : Bool
  Distinguished : Any F
  IsSubmitter : Bool
  Permalink : String

/-- The library functions the fingerprints go through, taken as parameters:
`json.Marshal` on the two canonical views (bytes or an error) and
`sha256.Sum256`. -/
structure Lib (F : Type) where
  MarshalFp : fp F → Except String String
  MarshalMinis : List (mini F) → Except String String
  Sum256 : String → List Nat

/-- Go `hex.EncodeToString`: two lowercase hexadecimal digits per byte. -/
def hexEncodeToString (bytes : List Nat) : String :=
  ⟨bytes.flatMap (fun b => [Nat.digitChar (b / 16 % 16), Nat.digitChar (b % 16)])⟩

/-- The composite literal `g := fp{...}` of `subsetHash`. -/
def subsetView {F : Type} (m : GoMap F) : fp F :=
  { ID := getS (m.index "id"), Name := getS (m.index "name"),
    Subreddit := getS (m.index "subreddit"), Author := getS (m.index "author"),
    IsSelf := getB (m.index "is_self"), Domain := getS (m.index "domain"),
    Title := getS (m.index "title"), SelftextHTML := getS (m.index "selftext_html"),
    Selftext := getS (m.index "selftext"), URL := getS (m.index "url"),
    Permalink := getS (m.index "permalink"), Edited := m.index "edited",
    Over18 := getB (m.index "over_18"), Spoiler := getB (m.index "spoiler"),
    Locked := getB (m.index "locked"), Stickied := getB (m.index "stickied"),
    LinkFlairText := getS (m.index "link_flair_text"),
    LinkFlairCSSClass := getS (m.index "link_flair_css_class") }

/-- The common tail of `subsetHash` and `threadHash`, on the outcome `b, err` of
`json.Marshal`: the error is returned, otherwise
`hex.EncodeToString(sum[:])` for `sum := sha256.Sum256(b)`. -/
def hashBytes {F : Type} (lib : Lib F) (marshalled : Except String String) :
    Except String String :=
  match marshalled with
  | .error err => .error err
  | .ok b => .ok (hexEncodeToString (lib.Sum256 b))

/-- The function `subsetHash(raw)`; `raw` is given by the outcome of
`json.Unmarshal(raw, &m)`. -/
def subsetHash {F : Type} (lib : Lib F) (raw : Except String (GoMap F)) : Except String String :=
  match raw with
  | .error err => .error err
  | .ok m => hashBytes lib (lib.MarshalFp (subsetView m))

/-- The element appended to `arr` for the row `r` in `threadHash`. -/
def miniView {F : Type} (r : GoMap F) : mini F :=
  { ID := getS (r.index "id"), Parent := getS (r.index "parent_id"),
    Author := getS (r.index "author"), Body := getS (r.index "body"),
    BodyHTML := getS (r.index "body_html"), Edited := r.index "edited",
    Stickied := (match r.index "stickied" with
      | .bool b => b
      | _ => false),
    Distinguished := r.index "distinguished",
    IsSubmitter := (match r.index "is_submitter" with
      | .bool b => b
      | _ => false),
    Permalink := getS (r.index "permalink") }

/-- The function `threadHash(rows)`. -/
def threadHash {F : Type} (lib : Lib F) (rows : List (GoMap F)) : Except String String :=
  hashBytes lib (lib.MarshalMinis (rows.map miniView))

/-- The keys `subsetHash` reads. -/
def submissionKeys : List String :=
  ["id", "name", "subreddit", "author", "is_self", "domain", "title", "selftext_html",
   "selftext", "url", "permalink", "edited", "over_18", "spoiler", "locked", "stickied",
   "link_flair_text", "link_flair_css_class"]

/-- The keys `threadHash` reads in each row. -/
def commentKeys : List String :=
  ["id", "parent_id", "author", "body", "body_html", "edited", "stickied", "distinguished",
   "is_submitter", "permalink"]

/-- What the canonical view keeps of the value at a selected submission key:
`getB` of it at the boolean fields, the value itself at `edited`, `getS` of it at
the string fields. -/
def submissionField {F : Type} (k : String) (v : Any F) : Any F :=
  if k ∈ ["is_self", "over_18", "spoiler", "locked", "stickied"] then .bool (getB v)
  else if k = "edited" then v
  else .string (getS v)

/-- What the canonical view keeps of the value at a selected comment key. -/
def commentField {F : Type} (k : String) (v : Any F) : Any F :=
  if k ∈ ["stickied", "is_submitter"] then .bool (getB v)
  else if k ∈ ["edited", "distinguished"] then v
  else .string (getS v)

/-- The comparison function given to `sort.SliceStable` in `fetchCommentsTree`. -/
def rowLess {F : Type} [LinearOrder F] [Zero F] (a b : GoMap F) : Bool :=
  let pi := getS (a.index "parent_id")
  let pj := getS (b.index "parent_id")
  if pi ≠ pj then decide (pi.data < pj.data)
  else
    let ci := getF (a.index "created_utc")
    let cj := getF (b.index "created_utc")
    if ci ≠ cj then decide (ci < cj)
    else decide ((getS (a.index "id")).data < (getS (b.index "id")).data)

/-- Go `sort.SliceStable(flat, less)` with the comparison of `fetchCommentsTree`:
a stable sort (insertion before the first element that is not smaller). -/
def sortFlat {F : Type} [LinearOrder F] [Zero F] (flat : List (GoMap F)) : List (GoMap F) :=
  flat.insertionSort (fun a b => rowLess b a = false)

/-- The function `fetchCommentsTree(tk, ua, postID)`; `fetched` is the outcome of
the request, the decoding and the flattening walk (`fwalkFlatten`) that precede
the sort. -/
def fetchCommentsTree {F : Type} [LinearOrder F] [Zero F]
    (fetched : Except String (List (GoMap F))) : Except String (List (GoMap F)) :=
  match fetched with
  | .error err => .error err
  | .ok flat => .ok (sortFlat flat)

/-- The sort key of a comment row: `(parent_id, created_utc, id)` as the
comparison reads them. -/
def sortKey {F : Type} [Zero F] (r : GoMap F) : String × F × String :=
  (getS (r.index "parent_id"), getF (r.index "created_utc"), getS (r.index "id"))

/-- The digest does not collide on the two serialisations `x` and `y`: when both
are bytes with the same hexadecimal SHA-256 sum, they are the same bytes. -/
def NoCollision {F : Type} (lib : Lib F) (x y : Except String String) : Prop :=
  ∀ b1 b2 : String, x = .ok b1 → y = .ok b2 →
    hexEncodeToString (lib.Sum256 b1) = hexEncodeToString (lib.Sum256 b2) → b1 = b2

/-- A stand-in for the library functions, used to evaluate the drivers on
examples: the views are serialised by joining some of their fields, and the sum
of a byte string is made of its first 32 character codes. -/
def exampleLib : Lib Int where
  MarshalFp := fun g => .ok (g.ID ++ "|" ++ g.Title ++ "|" ++ g.LinkFlairText)
  MarshalMinis := fun l => .ok (String.join (l.map (fun c => c.ID ++ "|" ++ c.Body ++ ";")))
  Sum256 := fun b => ((b.data.map Char.toNat) ++ List.replicate 32 0).take 32

/-- The sort key of a row in the lexicographic order of the comparison. -/
def keyLex {F : Type} [LinearOrder F] [Zero F] (r : GoMap F) : List Char ×ₗ F ×ₗ List Char :=
  toLex ((getS (r.index "parent_id")).data,
    toLex (getF (r.index "created_utc"), (getS (r.index "id")).data))

/-! ## The comments driver: latest capture of each post -/

/-- The struct `submissionLite` of the comments driver. -/
structure submissionLite (F : Type) where
  ID : String
  Name : String
  Permalink : String
  CreatedUTC : F
  Subreddit : String
  Title : String

/-- The function `readOneSubmission(path)`; `readFile path` is the outcome of
opening the file, reading its first line and decoding it. -/
def readOneSubmission {F : Type} (readFile : String → Except String (submissionLite F))
    (path : String) : Except String (submissionLite F × String) :=
  match readFile path with
  | .error err => .error err
  | .ok m => .ok (m, strings.TrimSuffix (filepath.Base path) ".jsonl")

/-- The struct `capInfo` of the comments driver. -/
structure capInfo where
  Path : String
  CreatedUnix : Int
  Capture : String
deriving DecidableEq, Repr

/-- The body of the selection loop of the comments driver for the file `f`;
`toInt64` is the conversion `int64(sl.CreatedUTC)` and `byPost` the map built so
far. -/
def selectStep {F : Type} (toInt64 : F → Int)
    (readFile : String → Except String (submissionLite F)) (cutoff : Int)
    (byPost : String → Option capInfo) (f : String) : String → Option capInfo :=
  match readOneSubmission readFile f with
  | .error _ => byPost
  | .ok (sl, capture) =>
    let created := toInt64 sl.CreatedUTC
    if created < cutoff then byPost
    else
      let postID := sl.ID
      let updated : String → Option capInfo :=
        fun k => if k = postID then some ⟨f, created, capture⟩ else byPost k
      match byPost postID with
      | none => updated
      | some old => if old.Capture.data < capture.data then updated else byPost

/-- The selection of the comments driver: `sort.Strings(matches)`, then the loop
that fills `byPost`. -/
def selectLatest {F : Type} (toInt64 : F → Int)
    (readFile : String → Except String (submissionLite F)) (cutoff : Int)
    (files : List String) : String → Option capInfo :=
  (sort.Strings files).foldl (selectStep toInt64 readFile cutoff) (fun _ => none)

/-- The loop reads from the file `f` a capture of the post `id`, created at or
after the cutoff, with capture marker `capture`. -/
def ReadsCapture {F : Type} (toInt64 : F → Int)
    (readFile : String → Except String (submissionLite F)) (cutoff : Int)
    (f id capture : String) : Prop :=
  ∃ sl : submissionLite F, readOneSubmission readFile f = .ok (sl, capture) ∧ sl.ID = id ∧
    cutoff ≤ toInt64 sl.CreatedUTC

/-- The file `f` is a readable capture of the post `id` whose `created_utc`,
as an integer, is at or after the cutoff, and `capture` is its capture marker:
its base file name without `.jsonl`. -/
def IsCapture {F : Type} (toInt64 : F → Int)
    (readFile : String → Except String (submissionLite F)) (cutoff : Int)
    (f id capture : String) : Prop :=
  ∃ sl : submissionLite F, readFile f = .ok sl ∧ sl.ID = id ∧
    cutoff ≤ toInt64 sl.CreatedUTC ∧
    capture = strings.TrimSuffix (filepath.Base f) ".jsonl"

/-! ## The per-entity loops of the two drivers -/

/-- The storage tree: for each entity directory path its state. -/
abbrev Tree := String → DirState

/-- The tree after the state of `dir` became `s`. -/
def Tree.set (t : Tree) (dir : String) (s : DirState) : Tree :=
  fun p => if p = dir then s else t p

/-- The function `createdIDName(raw)`; `raw` is given by the outcome of
`json.Unmarshal(raw, &m)` and `toInt64` is the conversion `int64(t)`.  The
`json.Number` case cannot arise: the decoder is used without `UseNumber`. -/
def createdIDName {F : Type} (toInt64 : F → Int) (raw : Except String (GoMap F)) :
    Except String (Int × String × String) :=
  match raw with
  | .error err => .error err
  | .ok m =>
    match m.lookup "created_utc" with
    | none => .error "no created_utc"
    | some (.float64 t) =>
      let id := getS (m.index "id")
      let name := getS (m.index "name")
      if id = "" ∨ name = "" then .error "no id/name"
      else .ok (toInt64 t, id, name)
    | some _ => .error "bad created_utc"

/-- The variables of the submissions driver that the page loop updates. -/
structure SubmissionsState where
  tree : Tree
  wrote : Nat
  batchW : Nat
  nextAfter : String
  stop : Bool

/-- How the page loop of the submissions driver ends: it runs through the page or
leaves it by `break`, or the process ends in `os.Exit(code)`. -/
inductive PageResult where
  | finished (st : SubmissionsState)
  | exited (code : Nat) (st : SubmissionsState)

/-- The loop `for _, c := range lst.Data.Children` of the submissions driver; each
child is given by the outcome of decoding `c.Data`.  The call `os.MkdirAll` and
the write of the payload are taken to succeed; a create that fails for another
reason than EEXIST ends the process. -/
def submissionsPage {F : Type} (toInt64 : F → Int) (lib : Lib F) (root sub : String)
    (cutoff : Int) (nowStr : String) :
    List (Except String (GoMap F)) → SubmissionsState → PageResult
  | [], st => .finished st
  | c :: cs, st =>
    match createdIDName toInt64 c with
    | .error _ => .exited 1 st
    | .ok (created, id, name) =>
      let st1 := if name ≠ "" then { st with nextAfter := name } else st
      if created < cutoff then .finished { st1 with stop := true }
      else
        let rel := layout.ThreadRel created id
        let dir := filepath.Join [layout.Base root sub, "submissions", rel]
        let st2 := { st1 with tree := st1.tree.set dir (mkdirAll (st1.tree dir)) }
        match subsetHash lib c with
        | .error _ => .exited 1 st2
        | .ok h =>
          match dedupStep dir (st2.tree dir) nowStr h with
          | (s, .wrote) =>
            submissionsPage toInt64 lib root sub cutoff nowStr cs
              { st2 with tree := st2.tree.set dir s, wrote := st2.wrote + 1,
                         batchW := st2.batchW + 1 }
          | (_, .openError) => .exited 1 st2
          | (_, _) => submissionsPage toInt64 lib root sub cutoff nowStr cs st2

/-- The surroundings of the comments driver: the capture files, the outcome of
the request and flattening walk for a post id, and the clock reading (seconds since
the epoch) at which a post is written. -/
structure CommentsEnv (F : Type) where
  readFile : String → Except String (submissionLite F)
  fetch : String → Except String (List (GoMap F))
  now : String → Int

/-- The counters and the tree of the comments driver. -/
structure CommentsState where
  tree : Tree
  writes : Nat
  skips : Nat
  empties : Nat

/-- The call `os.WriteFile(dir/name, ...)` whose error is ignored: in an existing
directory the file is there afterwards unless the name is taken. -/
def writeFile (s : DirState) (name : String) : DirState :=
  match s with
  | .missing => .missing
  | .present d listErr =>
    if d.any (fun e => decide (e.Name = name)) then s
    else .present (d ++ [⟨name, false⟩]) listErr

/-- The body of the loop `for _, pid := range keys` of the comments driver.  The
call `os.MkdirAll` and the write of the rows are taken to succeed; a create that
fails for another reason than EEXIST is logged and the loop goes on. -/
def commentsStep {F : Type} [LinearOrder F] [Zero F] (env : CommentsEnv F) (lib : Lib F)
    (root sub : String) (byPost : String → Option capInfo) (st : CommentsState)
    (pid : String) : CommentsState :=
  match byPost pid with
  | none => st
  | some info =>
    match readOneSubmission env.readFile info.Path with
    | .error _ => st
    | .ok (sl, _) =>
      let rel := layout.ThreadRel info.CreatedUnix sl.ID
      let dir := filepath.Join [layout.Base root sub, "comments", rel]
      let st1 := { st with tree := st.tree.set dir (mkdirAll (st.tree dir)) }
      match fetchCommentsTree (env.fetch sl.ID) with
      | .error _ => st1
      | .ok rows =>
        if rows.length = 0 then
          { st1 with empties := st1.empties + 1,
                     tree := st1.tree.set dir (writeFile (st1.tree dir) "EMPTY.txt") }
        else
          match threadHash lib rows with
          | .error _ => st1
          | .ok h =>
            let nowStr := gotime.format20060102150405 (gotime.UnixUTC (env.now pid))
            match dedupStep dir (st1.tree dir) nowStr h with
            | (s, .wrote) => { st1 with tree := st1.tree.set dir s, writes := st1.writes + 1 }
            | (_, .openError) => st1
            | (_, _) => { st1 with skips := st1.skips + 1 }

/-- The loop `for _, pid := range keys` of the comments driver. -/
def commentsLoop {F : Type} [LinearOrder F] [Zero F] (env : CommentsEnv F) (lib : Lib F)
    (root sub : String) (byPost : String → Option capInfo) (keys : List String)
    (st : CommentsState) : CommentsState :=
  keys.foldl (commentsStep env lib root sub byPost) st

/-- The exit status of a page, if the process ended. -/
def PageResult.exitCode : PageResult → Option Nat
  | .finished _ => none
  | .exited code _ => some code

/-- The variables of the driver when the page loop ended. -/
def PageResult.state : PageResult → SubmissionsState
  | .finished st => st
  | .exited _ st => st

/-- A payload of the examples: a submission with the given id, title and
creation time. -/
def examplePost (id title : String) (created : Int) : GoMap Int :=
  [("id", .string id), ("name", .string ("t3_" ++ id)), ("title", .string title),
   ("created_utc", .float64 created), ("score", .float64 1)]

/-- The empty tree and zero counters. -/
def emptySubmissions : SubmissionsState :=
  ⟨fun _ => .missing, 0, 0, "", false⟩

/-- The empty tree and zero counters. -/
def emptyComments : CommentsState :=
  ⟨fun _ => .missing, 0, 0, 0⟩

/-- The surroundings of the examples: one capture file of post `abc123`; the
fetch of `abc123` fails and the fetch of any other post yields one comment. -/
def exampleEnv : CommentsEnv Int where
  readFile := fun path =>
    if path = "r/abc123.jsonl" then .ok ⟨"abc123", "t3_abc123", "", 1700000000, "golang", "t"⟩
    else if path = "r/def456.jsonl" then
      .ok ⟨"def456", "t3_def456", "", 1700000001, "golang", "u"⟩
    else .error "open"
  fetch := fun id =>
    if id = "abc123" then .error "timeout"
    else .ok [[("id", .string "c1"), ("parent_id", .string "t3_def456"), ("body", .string "hi")]]
  now := fun _ => 1700003600

/-- The map `byPost` of the examples. -/
def exampleByPost : String → Option capInfo :=
  fun k =>
    if k = "abc123" then some ⟨"r/abc123.jsonl", 1700000000, "abc123"⟩
    else if k = "def456" then some ⟨"r/def456.jsonl", 1700000001, "def456"⟩
    else none

/-! ## Strings -/

theorem HasSuffix_iff (s suffix : String) :
    strings.HasSuffix s suffix = true ↔ ∃ p : String, s = p ++ suffix := by
  unfold strings.HasSuffix
  rw [decide_eq_true_iff]
  constructor
  · rintro ⟨t, ht⟩
    exact ⟨⟨t⟩, String.ext (by simp [ht])⟩
  · rintro ⟨p, rfl⟩
    exact ⟨p.data, by simp⟩

theorem Contains_iff (s substr : String) :
    strings.Contains s substr = true ↔ ∃ a b : String, s = a ++ substr ++ b := by
  unfold strings.Contains
  rw [decide_eq_true_iff]
  constructor
  · rintro ⟨a, b, hab⟩
    exact ⟨⟨a⟩, ⟨b⟩, String.ext (by simp [← hab])⟩
  · rintro ⟨a, b, rfl⟩
    exact ⟨a.data, b.data, by simp⟩

theorem strLE_total (a b : String) : a.data ≤ b.data ∨ b.data ≤ a.data :=
  le_total a.data b.data

theorem strLE_trans (a b c : String) (h1 : a.data ≤ b.data) (h2 : b.data ≤ c.data) :
    a.data ≤ c.data :=
  le_trans h1 h2

theorem sort_Strings_perm (l : List String) : (sort.Strings l).Perm l :=
  List.perm_insertionSort _ l

theorem sort_Strings_sorted (l : List String) :
    List.Sorted (fun a b : String => a.data ≤ b.data) (sort.Strings l) :=
  @List.sorted_insertionSort _ _ _ ⟨strLE_total⟩ ⟨strLE_trans⟩ l

theorem sorted_getLastD_max {α : Type} (r : α → α → Prop) (hr : ∀ a, r a a)
    (l : List α) (x : α) (hs : List.Sorted r l) : ∀ m ∈ l, r m (l.getLastD x) := by
  rcases List.eq_nil_or_concat l with h | ⟨init, b, h⟩
  · subst h
    intro m hm
    simp at hm
  · rw [List.concat_eq_append] at h
    subst h
    intro m hm
    rw [List.getLastD_concat]
    rcases List.mem_append.mp hm with h1 | h1
    · exact (List.pairwise_append.mp hs).2.2 m h1 b (by simp)
    · simp at h1
      subst h1
      exact hr m

theorem getLastD_mem_of_ne_nil {α : Type} (l : List α) (x : α) (h : l ≠ []) :
    l.getLastD x ∈ l := by
  rcases List.eq_nil_or_concat l with h1 | ⟨init, b, h1⟩
  · exact absurd h1 h
  · rw [List.concat_eq_append] at h1
    subst h1
    rw [List.getLastD_concat]
    simp

/-! ## The dedup store -/

theorem hashCandidates_eq_map (d : List DirEntry) (h : String) :
    hashCandidates d h = (snapshotsOf d h).map DirEntry.Name := by
  unfold hashCandidates snapshotsOf
  induction d with
  | nil => rfl
  | cons e t ih =>
    rw [List.filterMap_cons, List.filter_cons]
    cases hdir : e.IsDir <;> cases hs : strings.HasSuffix e.Name ".jsonl" <;>
      cases hc : strings.Contains e.Name ("_" ++ h) <;> simp_all

theorem mem_snapshotsOf (d : List DirEntry) (h : String) (e : DirEntry) :
    e ∈ snapshotsOf d h ↔ e ∈ d ∧ e.IsDir = false ∧ strings.HasSuffix e.Name ".jsonl" = true ∧
      strings.Contains e.Name ("_" ++ h) = true := by
  unfold snapshotsOf
  simp [List.mem_filter, and_assoc]

theorem mem_hashCandidates (ents : List DirEntry) (hash n : String) :
    n ∈ hashCandidates ents hash ↔ ∃ e ∈ ents, MatchesHash e hash ∧ e.Name = n := by
  rw [hashCandidates_eq_map, List.mem_map]
  constructor
  · rintro ⟨e, he, rfl⟩
    rw [mem_snapshotsOf] at he
    exact ⟨e, he.1, ⟨he.2.1, (HasSuffix_iff _ _).mp he.2.2.1, (Contains_iff _ _).mp he.2.2.2⟩, rfl⟩
  · rintro ⟨e, he, ⟨h1, h2, h3⟩, rfl⟩
    exact ⟨e, (mem_snapshotsOf _ _ _).mpr ⟨he, h1, (HasSuffix_iff _ _).mpr h2,
      (Contains_iff _ _).mpr h3⟩, rfl⟩

theorem hasHashFile_found_iff (ents : List DirEntry) (dir hash : String) :
    (hasHashFile (.ok ents) dir hash).1 = true ↔ hashCandidates ents hash ≠ [] := by
  unfold hasHashFile
  by_cases h : (hashCandidates ents hash).length = 0
  · simp [h, List.length_eq_zero.mp h]
  · simp only [h, if_false]
    simp only [true_iff]
    intro h2
    exact h (by simp [h2])

/-- C5: `hasHashFile` reports found exactly when a non-directory entry ends in
`.jsonl` and contains `_hash`; the path it returns is `dir` joined with the
lexicographically greatest such name; no error is returned for a listing, and a
missing directory gives not-found without an error. -/
theorem hasHashFile_spec (ents : List DirEntry) (dir hash : String) :
    ((hasHashFile (.ok ents) dir hash).1 = true ↔ ∃ e ∈ ents, MatchesHash e hash) ∧
    ((hasHashFile (.ok ents) dir hash).1 = true →
      ∃ e ∈ ents, MatchesHash e hash ∧
        (∀ e2 ∈ ents, MatchesHash e2 hash → e2.Name ≤ e.Name) ∧
        (hasHashFile (.ok ents) dir hash).2.1 = filepath.Join [dir, e.Name]) ∧
    (hasHashFile (.ok ents) dir hash).2.2 = none ∧
    hasHashFile .notExist dir hash = (false, "", none) := by
  have hfound : (hasHashFile (.ok ents) dir hash).1 = true ↔ ∃ e ∈ ents, MatchesHash e hash := by
    rw [hasHashFile_found_iff]
    constructor
    · intro hne
      obtain ⟨n, hn⟩ := List.exists_mem_of_ne_nil _ hne
      obtain ⟨e, he, hm, _⟩ := (mem_hashCandidates _ _ _).mp hn
      exact ⟨e, he, hm⟩
    · rintro ⟨e, he, hm⟩ hnil
      have : e.Name ∈ hashCandidates ents hash := (mem_hashCandidates _ _ _).mpr ⟨e, he, hm, rfl⟩
      rw [hnil] at this
      simp at this
  refine ⟨hfound, ?_, ?_, rfl⟩
  · intro hf
    have hne : hashCandidates ents hash ≠ [] := (hasHashFile_found_iff _ _ _).mp hf
    have hsne : sort.Strings (hashCandidates ents hash) ≠ [] := by
      intro h0
      have hp := sort_Strings_perm (hashCandidates ents hash)
      rw [h0] at hp
      exact hne (List.Perm.nil_eq hp).symm
    have hlast := getLastD_mem_of_ne_nil _ "" hsne
    have hlast2 : (sort.Strings (hashCandidates ents hash)).getLastD "" ∈ hashCandidates ents hash :=
      (sort_Strings_perm _).mem_iff.mp hlast
    obtain ⟨e, he, hm, hname⟩ := (mem_hashCandidates _ _ _).mp hlast2
    refine ⟨e, he, hm, ?_, ?_⟩
    · intro e2 he2 hm2
      have hmem : e2.Name ∈ sort.Strings (hashCandidates ents hash) :=
        (sort_Strings_perm _).mem_iff.mpr ((mem_hashCandidates _ _ _).mpr ⟨e2, he2, hm2, rfl⟩)
      have := sorted_getLastD_max (fun a b : String => a.data ≤ b.data) (fun a => le_refl a.data)
        _ "" (sort_Strings_sorted _) _ hmem
      rw [hname]
      exact String.le_iff_toList_le.mpr this
    · rw [hname]
      unfold hasHashFile
      have hlen : ¬ (hashCandidates ents hash).length = 0 := by
        intro h0
        exact hne (List.length_eq_zero.mp h0)
      simp only [hlen, if_false]
  · unfold hasHashFile
    by_cases h : (hashCandidates ents hash).length = 0 <;> simp [h]

/-- Two snapshot files of one fingerprint: the lexicographically last is returned. -/
theorem hasHashFile_two_matches :
    hasHashFile
        (.ok [⟨"231114221320_0123456789abcdef0123456789abcdef0123456789abcdef0123456789abcdef.jsonl",
            false⟩,
          ⟨"231114221321_0123456789abcdef0123456789abcdef0123456789abcdef0123456789abcdef.jsonl",
            false⟩,
          ⟨"EMPTY.txt", false⟩])
        "data/r_golang/comments/2023/1114/221320_abc123"
        "0123456789abcdef0123456789abcdef0123456789abcdef0123456789abcdef" =
      (true, "data/r_golang/comments/2023/1114/221320_abc123/231114221321_0123456789abcdef0123456789abcdef0123456789abcdef0123456789abcdef.jsonl",
        none) := by
  decide

theorem prefix_of_infix_sep (c : Char) (ts rest h : List Char) (h1 : c ∉ ts) (h2 : c ∉ rest)
    (hi : (c :: h) <:+: ts ++ c :: rest) : h <+: rest := by
  obtain ⟨s, t, hst⟩ := hi
  have hst2 : s ++ (c :: (h ++ t)) = ts ++ c :: rest := by simpa using hst
  rcases List.append_eq_append_iff.mp hst2 with ⟨a, ha1, ha2⟩ | ⟨a, ha1, ha2⟩
  · cases a with
    | nil =>
      simp at ha2
      exact ⟨t, ha2⟩
    | cons x a2 =>
      simp at ha2
      exfalso
      apply h1
      rw [ha1, ha2.1]
      simp
  · cases a with
    | nil =>
      simp at ha2
      exact ⟨t, ha2.symm⟩
    | cons x a2 =>
      simp at ha2
      exfalso
      apply h2
      rw [ha2.2]
      simp

theorem snapshotName_data (ts g : String) :
    (snapshotName ts g).data = ts.data ++ '_' :: (g.data ++ ".jsonl".data) := by
  simp [snapshotName]

theorem underscore_not_mem_digits (ts : String) (h : isDigits ts = true) : '_' ∉ ts.data := by
  intro hm
  have := List.all_eq_true.mp h '_' hm
  revert this
  decide

theorem underscore_not_mem_tail (g : String) (h : isFingerprint g = true) :
    '_' ∉ g.data ++ ".jsonl".data := by
  intro hm
  unfold isFingerprint at h
  rw [Bool.and_eq_true] at h
  rcases List.mem_append.mp hm with h1 | h1
  · have := List.all_eq_true.mp h.2 '_' h1
    revert this
    decide
  · revert h1
    decide

theorem length_of_isFingerprint (g : String) (h : isFingerprint g = true) :
    g.data.length = 64 := by
  unfold isFingerprint at h
  rw [Bool.and_eq_true] at h
  exact of_decide_eq_true h.1

/-- A well-formed snapshot name carries exactly one fingerprint. -/
theorem snapshotName_contains (ts g f : String) (hts : isDigits ts = true)
    (hg : isFingerprint g = true) (hf : f.data.length = 64)
    (hc : strings.Contains (snapshotName ts g) ("_" ++ f) = true) : f = g := by
  unfold strings.Contains at hc
  rw [decide_eq_true_iff, snapshotName_data] at hc
  have hc2 : ('_' :: f.data) <:+: ts.data ++ '_' :: (g.data ++ ".jsonl".data) := by
    simpa using hc
  obtain ⟨t, ht⟩ := prefix_of_infix_sep '_' _ _ _ (underscore_not_mem_digits ts hts)
    (underscore_not_mem_tail g hg) hc2
  have hlen : f.data.length = g.data.length := by
    rw [hf, length_of_isFingerprint g hg]
  exact String.ext (List.append_inj ht hlen).1

/-- C10: on a directory whose file names all have the form
`digits_fingerprint.jsonl`, `hasHashFile` finds a fingerprint `h` only if a file
of the directory has exactly `h` as its fingerprint part. -/
theorem hasHashFile_no_false_positive (d : List DirEntry) (dir h : String)
    (hd : ∀ e ∈ d, e.IsDir = false →
      ∃ ts g : String, isDigits ts = true ∧ isFingerprint g = true ∧ e.Name = snapshotName ts g)
    (hh : isFingerprint h = true)
    (hfound : (hasHashFile (.ok d) dir h).1 = true) :
    ∃ e ∈ d, e.IsDir = false ∧
      ∃ ts : String, isDigits ts = true ∧ e.Name = ts ++ "_" ++ h ++ ".jsonl" := by
  have hne := (hasHashFile_found_iff d dir h).mp hfound
  obtain ⟨n, hn⟩ := List.exists_mem_of_ne_nil _ hne
  rw [hashCandidates_eq_map, List.mem_map] at hn
  obtain ⟨e, he, _⟩ := hn
  rw [mem_snapshotsOf] at he
  obtain ⟨ts, g, hts, hg, hname⟩ := hd e he.1 he.2.1
  have hc := he.2.2.2
  rw [hname] at hc
  have hgh : h = g := snapshotName_contains ts g h hts hg (length_of_isFingerprint h hh) hc
  refine ⟨e, he.1, he.2.1, ts, hts, ?_⟩
  rw [hname, hgh]
  rfl

theorem hasHashFile_no_false_positive_witness :
    ∃ e ∈ [(⟨"231114221320_0123456789abcdef0123456789abcdef0123456789abcdef0123456789abcdef.jsonl",
        false⟩ : DirEntry), ⟨"sub", true⟩],
      e.IsDir = false ∧ ∃ ts : String, isDigits ts = true ∧
        e.Name = ts ++ "_" ++ "0123456789abcdef0123456789abcdef0123456789abcdef0123456789abcdef" ++
          ".jsonl" :=
  hasHashFile_no_false_positive
    [⟨"231114221320_0123456789abcdef0123456789abcdef0123456789abcdef0123456789abcdef.jsonl",
      false⟩, ⟨"sub", true⟩]
    "d" "0123456789abcdef0123456789abcdef0123456789abcdef0123456789abcdef"
    (by
      intro e he hdir
      simp only [List.mem_cons, List.mem_singleton, List.not_mem_nil, or_false] at he
      rcases he with rfl | rfl
      · exact ⟨"231114221320", "0123456789abcdef0123456789abcdef0123456789abcdef0123456789abcdef",
          by decide, by decide, by decide⟩
      · exact absurd hdir (by decide))
    (by decide) (by decide)

theorem snapshotsOf_append (d1 d2 : List DirEntry) (f : String) :
    snapshotsOf (d1 ++ d2) f = snapshotsOf d1 f ++ snapshotsOf d2 f := by
  unfold snapshotsOf
  exact List.filter_append _ _

theorem snapshotsOf_eq_nil_of_not_found (d : List DirEntry) (dir h : String)
    (hnf : (hasHashFile (.ok d) dir h).1 = false) : snapshotsOf d h = [] := by
  have h1 : ¬ hashCandidates d h ≠ [] := by
    intro h2
    have := (hasHashFile_found_iff d dir h).mpr h2
    rw [hnf] at this
    exact Bool.false_ne_true this
  have h3 : hashCandidates d h = [] := not_not.mp h1
  rw [hashCandidates_eq_map] at h3
  exact List.map_eq_nil_iff.mp h3

theorem dedupStep_cases (dir : String) (s : DirState) (nowStr h : String) :
    ((hasHashFile s.readDir dir h).1 = true ∧ dedupStep dir s nowStr h = (s, .skipFound)) ∨
    ((hasHashFile s.readDir dir h).1 = false ∧ s = .missing ∧
      dedupStep dir s nowStr h = (s, .openError)) ∨
    (∃ d l, s = .present d l ∧ (hasHashFile s.readDir dir h).1 = false ∧
      (∃ e ∈ d, e.Name = snapshotName nowStr h) ∧
      dedupStep dir s nowStr h = (s, .skipExists)) ∨
    (∃ d l, s = .present d l ∧ (hasHashFile s.readDir dir h).1 = false ∧
      (∀ e ∈ d, e.Name ≠ snapshotName nowStr h) ∧
      dedupStep dir s nowStr h = (.present (d ++ [⟨snapshotName nowStr h, false⟩]) l, .wrote)) := by
  unfold dedupStep openExcl
  cases hfound : (hasHashFile s.readDir dir h).1 with
  | true => left; simp
  | false =>
    right
    cases s with
    | missing => left; simp
    | present d l =>
      right
      by_cases hex : (d.any fun e => decide (e.Name = snapshotName nowStr h)) = true
      · left
        obtain ⟨e, he, hname⟩ := List.any_eq_true.mp hex
        exact ⟨d, l, rfl, rfl, ⟨e, he, of_decide_eq_true hname⟩, by simp [hex]⟩
      · right
        refine ⟨d, l, rfl, rfl, ?_, by simp [hex]⟩
        intro e he hname
        exact hex (List.any_eq_true.mpr ⟨e, he, decide_eq_true hname⟩)

theorem readDir_of_listable (d : List DirEntry) (l : Option String)
    (hl : (DirState.present d l).listable = true) : (DirState.present d l).readDir = .ok d := by
  cases l with
  | none => rfl
  | some err => exact absurd hl (by simp [DirState.listable])

/-- The dedup step does not change whether the directory can be listed. -/
theorem dedupStep_listable (dir : String) (s : DirState) (nowStr h : String) :
    (dedupStep dir s nowStr h).1.listable = s.listable := by
  rcases dedupStep_cases dir s nowStr h with ⟨_, heq⟩ | ⟨_, _, heq⟩ | ⟨d, l, _, _, _, heq⟩ |
    ⟨d, l, hs, _, _, heq⟩
  · rw [heq]
  · rw [heq]
  · rw [heq]
  · rw [heq, hs]
    cases l <;> rfl

/-- On a directory that can be listed the dedup step keeps the invariant. -/
theorem dedupStep_inv (dir : String) (s : DirState) (nowStr h : String)
    (hts : isDigits nowStr = true) (hh : isFingerprint h = true)
    (hlist : s.listable = true) (hinv : DedupInv s.entries) :
    DedupInv (dedupStep dir s nowStr h).1.entries := by
  rcases dedupStep_cases dir s nowStr h with ⟨_, heq⟩ | ⟨_, _, heq⟩ | ⟨d, l, _, _, _, heq⟩ |
    ⟨d, l, hs, hfound, _, heq⟩
  · rw [heq]; exact hinv
  · rw [heq]; exact hinv
  · rw [heq]; exact hinv
  · rw [heq]
    subst hs
    rw [readDir_of_listable d l hlist] at hfound
    intro f hf
    show (snapshotsOf (d ++ [⟨snapshotName nowStr h, false⟩]) f).length ≤ 1
    rw [snapshotsOf_append]
    by_cases hfh : f = h
    · subst hfh
      rw [snapshotsOf_eq_nil_of_not_found d dir f hfound]
      unfold snapshotsOf
      simp only [List.nil_append]
      exact le_trans (List.length_filter_le _ _) (by simp)
    · have hnew : snapshotsOf [(⟨snapshotName nowStr h, false⟩ : DirEntry)] f = [] := by
        unfold snapshotsOf
        rw [List.filter_eq_nil_iff]
        intro e he
        simp only [List.mem_singleton] at he
        subst he
        intro hc
        simp only [Bool.and_eq_true] at hc
        exact hfh (snapshotName_contains nowStr h f hts hh (length_of_isFingerprint f hf) hc.2)
      rw [hnew, List.append_nil]
      exact hinv f hf

theorem DedupInv_singleton (e : DirEntry) : DedupInv [e] := by
  intro f _
  unfold snapshotsOf
  exact le_trans (List.length_filter_le _ _) (by simp)

/-- After one run on a listable directory without a subdirectory of the target
name, `hasHashFile` finds the fingerprint unless the directory is missing. -/
theorem dedupStep_then_found (dir : String) (d : List DirEntry) (l : Option String)
    (nowStr h : String) (hlist : (DirState.present d l).listable = true)
    (hfree : ∀ e ∈ d, e.IsDir = true → e.Name ≠ snapshotName nowStr h) :
    (hasHashFile (dedupStep dir (.present d l) nowStr h).1.readDir dir h).1 = true := by
  have hsuf : strings.HasSuffix (snapshotName nowStr h) ".jsonl" = true :=
    (HasSuffix_iff _ _).mpr ⟨nowStr ++ "_" ++ h, rfl⟩
  have hcon : strings.Contains (snapshotName nowStr h) ("_" ++ h) = true :=
    (Contains_iff _ _).mpr ⟨nowStr, ".jsonl", by simp [snapshotName, String.append_assoc]⟩
  have hrd := readDir_of_listable d l hlist
  rcases dedupStep_cases dir (.present d l) nowStr h with ⟨hf, heq⟩ | ⟨_, hm, _⟩ |
    ⟨d2, l2, hs, hfound, ⟨e, he, hname⟩, _⟩ | ⟨d2, l2, hs, _, _, heq⟩
  · rw [heq]; exact hf
  · cases hm
  · exfalso
    cases hs
    rw [hrd] at hfound
    cases hdir : e.IsDir with
    | true => exact hfree e he hdir hname
    | false =>
      have hmem : e ∈ snapshotsOf d h :=
        (mem_snapshotsOf d h e).mpr ⟨he, hdir, by rw [hname]; exact hsuf,
          by rw [hname]; exact hcon⟩
      rw [snapshotsOf_eq_nil_of_not_found d dir h hfound] at hmem
      simp at hmem
  · cases hs
    rw [heq]
    have hl2 : (DirState.present (d ++ [⟨snapshotName nowStr h, false⟩]) l).listable = true := by
      cases l with
      | none => rfl
      | some err => exact absurd hlist (by simp [DirState.listable])
    show (hasHashFile (DirState.present (d ++ [⟨snapshotName nowStr h, false⟩]) l).readDir
      dir h).1 = true
    rw [readDir_of_listable _ l hl2, hasHashFile_found_iff, hashCandidates_eq_map,
      snapshotsOf_append]
    intro hnil
    have : (⟨snapshotName nowStr h, false⟩ : DirEntry) ∈
        snapshotsOf [(⟨snapshotName nowStr h, false⟩ : DirEntry)] h :=
      (mem_snapshotsOf _ _ _).mpr ⟨by simp, rfl, hsuf, hcon⟩
    have hne : snapshotsOf d h ++ snapshotsOf [(⟨snapshotName nowStr h, false⟩ : DirEntry)] h
        ≠ [] := by
      intro h0
      rw [(List.append_eq_nil.mp h0).2] at this
      simp at this
    exact hne (List.map_eq_nil_iff.mp hnil)

/-- C1 (amended): for a directory that can be listed and has no subdirectory of
the name `nowStr_h.jsonl` of the first run, a second run of the dedup step with
the same fingerprint, at any capture timestamp, adds no file and leaves the
directory unchanged; when the directory exists this is because `hasHashFile`
finds the file of the first run. -/
theorem dedupStep_idempotent (dir : String) (s : DirState) (nowStr nowStr2 h : String)
    (hlist : s.listable = true)
    (hfree : ∀ e ∈ s.entries, e.IsDir = true → e.Name ≠ snapshotName nowStr h) :
    (dedupStep dir (dedupStep dir s nowStr h).1 nowStr2 h).1 = (dedupStep dir s nowStr h).1 ∧
    (s ≠ .missing →
      (hasHashFile (dedupStep dir s nowStr h).1.readDir dir h).1 = true ∧
      (dedupStep dir (dedupStep dir s nowStr h).1 nowStr2 h).2 = StepOutcome.skipFound) := by
  cases s with
  | missing =>
    refine ⟨?_, fun hne => absurd rfl hne⟩
    rfl
  | present d l =>
    have key := dedupStep_then_found dir d l nowStr h hlist hfree
    rcases dedupStep_cases dir (dedupStep dir (.present d l) nowStr h).1 nowStr2 h with
      ⟨_, heq⟩ | ⟨hnf, _⟩ | ⟨_, _, _, hnf, _⟩ | ⟨_, _, _, hnf, _⟩
    · rw [heq]
      exact ⟨rfl, fun _ => ⟨key, rfl⟩⟩
    · rw [key] at hnf; exact absurd hnf (by decide)
    · rw [key] at hnf; exact absurd hnf (by decide)
    · rw [key] at hnf; exact absurd hnf (by decide)

theorem dedupStep_idempotent_witness :
    (dedupStep "d" (dedupStep "d" (.present [⟨"sub", true⟩] none) "231114221320"
        "0123456789abcdef0123456789abcdef0123456789abcdef0123456789abcdef").1 "231114221321"
        "0123456789abcdef0123456789abcdef0123456789abcdef0123456789abcdef").1 =
      (dedupStep "d" (.present [⟨"sub", true⟩] none) "231114221320"
        "0123456789abcdef0123456789abcdef0123456789abcdef0123456789abcdef").1 ∧
    (DirState.present [⟨"sub", true⟩] none ≠ .missing →
      (hasHashFile (dedupStep "d" (.present [⟨"sub", true⟩] none) "231114221320"
        "0123456789abcdef0123456789abcdef0123456789abcdef0123456789abcdef").1.readDir "d"
        "0123456789abcdef0123456789abcdef0123456789abcdef0123456789abcdef").1 = true ∧
      (dedupStep "d" (dedupStep "d" (.present [⟨"sub", true⟩] none) "231114221320"
        "0123456789abcdef0123456789abcdef0123456789abcdef0123456789abcdef").1 "231114221321"
        "0123456789abcdef0123456789abcdef0123456789abcdef0123456789abcdef").2 =
        StepOutcome.skipFound) :=
  dedupStep_idempotent "d" (.present [⟨"sub", true⟩] none) "231114221320" "231114221321"
    "0123456789abcdef0123456789abcdef0123456789abcdef0123456789abcdef" (by decide) (by decide)

/-- C1 as stated fails: in a listable directory with a subdirectory named like the
first run's snapshot file, the first run is refused by the exclusive create and
leaves the directory as it is, and a second run with the same fingerprint one
second later writes a new file; and in a directory that cannot be listed the first
run writes a file that `hasHashFile` does not find, so the second run writes
another. -/
theorem dedupStep_second_run_writes :
    (dedupStep "d"
        (.present
          [⟨"231114221320_0123456789abcdef0123456789abcdef0123456789abcdef0123456789abcdef.jsonl",
            true⟩] none)
        "231114221320" "0123456789abcdef0123456789abcdef0123456789abcdef0123456789abcdef" =
      (.present
        [⟨"231114221320_0123456789abcdef0123456789abcdef0123456789abcdef0123456789abcdef.jsonl",
          true⟩] none, StepOutcome.skipExists) ∧
    dedupStep "d"
        (dedupStep "d"
          (.present
            [⟨"231114221320_0123456789abcdef0123456789abcdef0123456789abcdef0123456789abcdef.jsonl",
              true⟩] none)
          "231114221320" "0123456789abcdef0123456789abcdef0123456789abcdef0123456789abcdef").1
        "231114221321" "0123456789abcdef0123456789abcdef0123456789abcdef0123456789abcdef" =
      (.present
        [⟨"231114221320_0123456789abcdef0123456789abcdef0123456789abcdef0123456789abcdef.jsonl",
          true⟩,
        ⟨"231114221321_0123456789abcdef0123456789abcdef0123456789abcdef0123456789abcdef.jsonl",
          false⟩] none, StepOutcome.wrote)) ∧
    (dedupStep "d" (.present [] (some "permission denied"))
        "231114221320" "0123456789abcdef0123456789abcdef0123456789abcdef0123456789abcdef" =
      (.present
        [⟨"231114221320_0123456789abcdef0123456789abcdef0123456789abcdef0123456789abcdef.jsonl",
          false⟩] (some "permission denied"), StepOutcome.wrote) ∧
    dedupStep "d"
        (dedupStep "d" (.present [] (some "permission denied"))
          "231114221320" "0123456789abcdef0123456789abcdef0123456789abcdef0123456789abcdef").1
        "231114221321" "0123456789abcdef0123456789abcdef0123456789abcdef0123456789abcdef" =
      (.present
        [⟨"231114221320_0123456789abcdef0123456789abcdef0123456789abcdef0123456789abcdef.jsonl",
          false⟩,
        ⟨"231114221321_0123456789abcdef0123456789abcdef0123456789abcdef0123456789abcdef.jsonl",
          false⟩] (some "permission denied"), StepOutcome.wrote)) := by
  decide

/-- C2 fails on the code: in a directory that can be written but not listed,
`hasHashFile` returns an error, the drivers discard it and take the fingerprint
as not found, and the step writes a second snapshot file for a fingerprint that
has one already, so a directory that satisfied the dedup invariant no longer
does. -/
theorem dedupStep_unlistable_breaks_invariant :
    DedupInv (DirState.present
      [⟨"231114221320_0123456789abcdef0123456789abcdef0123456789abcdef0123456789abcdef.jsonl",
        false⟩] (some "permission denied")).entries ∧
    hasHashFile (DirState.present
      [⟨"231114221320_0123456789abcdef0123456789abcdef0123456789abcdef0123456789abcdef.jsonl",
        false⟩] (some "permission denied")).readDir "d"
      "0123456789abcdef0123456789abcdef0123456789abcdef0123456789abcdef" =
      (false, "", some "permission denied") ∧
    dedupStep "d" (.present
      [⟨"231114221320_0123456789abcdef0123456789abcdef0123456789abcdef0123456789abcdef.jsonl",
        false⟩] (some "permission denied"))
      "231114221321" "0123456789abcdef0123456789abcdef0123456789abcdef0123456789abcdef" =
      (.present
        [⟨"231114221320_0123456789abcdef0123456789abcdef0123456789abcdef0123456789abcdef.jsonl",
          false⟩,
        ⟨"231114221321_0123456789abcdef0123456789abcdef0123456789abcdef0123456789abcdef.jsonl",
          false⟩] (some "permission denied"), StepOutcome.wrote) ∧
    ¬ DedupInv (dedupStep "d" (.present
      [⟨"231114221320_0123456789abcdef0123456789abcdef0123456789abcdef0123456789abcdef.jsonl",
        false⟩] (some "permission denied"))
      "231114221321"
      "0123456789abcdef0123456789abcdef0123456789abcdef0123456789abcdef").1.entries := by
  refine ⟨DedupInv_singleton _, by decide, by decide, ?_⟩
  intro hinv
  have := hinv "0123456789abcdef0123456789abcdef0123456789abcdef0123456789abcdef" (by decide)
  revert this
  decide

/-! ## Layout -/

theorem toDigitsCore_succ (fuel n : Nat) (acc : List Char) :
    Nat.toDigitsCore 10 (fuel + 1) n acc =
      if n / 10 = 0 then (n % 10).digitChar :: acc
      else Nat.toDigitsCore 10 fuel (n / 10) ((n % 10).digitChar :: acc) := by
  simp [Nat.toDigitsCore]

theorem toDigits_one (n : Nat) (h : n < 10) : Nat.toDigits 10 n = [Nat.digitChar n] := by
  unfold Nat.toDigits
  rw [toDigitsCore_succ]
  have h1 : n / 10 = 0 := by omega
  have h2 : n % 10 = n := by omega
  simp [h1, h2]

theorem toDigits_two (n : Nat) (h1 : 10 ≤ n) (h2 : n < 100) :
    Nat.toDigits 10 n = [Nat.digitChar (n / 10), Nat.digitChar (n % 10)] := by
  unfold Nat.toDigits
  obtain ⟨k, hk⟩ : ∃ k, n + 1 = k + 1 + 1 := ⟨n - 1, by omega⟩
  rw [hk, toDigitsCore_succ, toDigitsCore_succ]
  have a1 : n / 10 ≠ 0 := by omega
  have a2 : n / 10 / 10 = 0 := by omega
  have a3 : n / 10 % 10 = n / 10 := by omega
  simp [a1, a2, a3]

theorem toDigits_three (n : Nat) (h1 : 100 ≤ n) (h2 : n < 1000) :
    Nat.toDigits 10 n =
      [Nat.digitChar (n / 100), Nat.digitChar (n / 10 % 10), Nat.digitChar (n % 10)] := by
  unfold Nat.toDigits
  obtain ⟨k, hk⟩ : ∃ k, n + 1 = k + 1 + 1 + 1 := ⟨n - 2, by omega⟩
  rw [hk, toDigitsCore_succ, toDigitsCore_succ, toDigitsCore_succ]
  have a1 : n / 10 ≠ 0 := by omega
  have a2 : n / 10 / 10 ≠ 0 := by omega
  have a3 : n / 10 / 10 / 10 = 0 := by omega
  have a4 : n / 10 / 10 % 10 = n / 100 := by omega
  simp [a1, a2, a3, a4]

theorem toDigits_four (n : Nat) (h1 : 1000 ≤ n) (h2 : n < 10000) :
    Nat.toDigits 10 n =
      [Nat.digitChar (n / 1000), Nat.digitChar (n / 100 % 10), Nat.digitChar (n / 10 % 10),
        Nat.digitChar (n % 10)] := by
  unfold Nat.toDigits
  obtain ⟨k, hk⟩ : ∃ k, n + 1 = k + 1 + 1 + 1 + 1 := ⟨n - 3, by omega⟩
  rw [hk, toDigitsCore_succ, toDigitsCore_succ, toDigitsCore_succ, toDigitsCore_succ]
  have a1 : n / 10 ≠ 0 := by omega
  have a2 : n / 10 / 10 ≠ 0 := by omega
  have a3 : n / 10 / 10 / 10 ≠ 0 := by omega
  have a4 : n / 10 / 10 / 10 / 10 = 0 := by omega
  have a5 : n / 10 / 10 / 10 % 10 = n / 1000 := by omega
  have a6 : n / 10 / 10 % 10 = n / 100 % 10 := by omega
  simp [a1, a2, a3, a4, a5, a6]

theorem digitChar_zero : Nat.digitChar 0 = '0' := rfl

theorem fixedDec_two (n : Nat) :
    fixedDec 2 n = ⟨[Nat.digitChar (n / 10 % 10), Nat.digitChar (n % 10)]⟩ := by
  simp [fixedDec, List.range_succ]

theorem fixedDec_four (n : Nat) :
    fixedDec 4 n = ⟨[Nat.digitChar (n / 1000 % 10), Nat.digitChar (n / 100 % 10),
      Nat.digitChar (n / 10 % 10), Nat.digitChar (n % 10)]⟩ := by
  simp [fixedDec, List.range_succ]

theorem appendInt_two (x : Int) (h0 : 0 ≤ x) (h1 : x < 100) :
    gotime.appendInt x 2 = fixedDec 2 x.toNat := by
  obtain ⟨n, rfl⟩ := Int.eq_ofNat_of_zero_le h0
  have hn : n < 100 := by omega
  have hneg : ¬ ((n : Int) < 0) := by omega
  rw [fixedDec_two]
  unfold gotime.appendInt
  simp only [Int.natAbs_ofNat, hneg, if_false, Int.toNat_ofNat, List.nil_append]
  by_cases h : n < 10
  · rw [toDigits_one n h]
    have a1 : n / 10 % 10 = 0 := by omega
    have a2 : n % 10 = n := by omega
    simp [a1, a2, List.replicate, digitChar_zero]
  · rw [toDigits_two n (by omega) hn]
    have a1 : n / 10 % 10 = n / 10 := by omega
    simp [a1]

theorem appendInt_four (x : Int) (h0 : 0 ≤ x) (h1 : x < 10000) :
    gotime.appendInt x 4 = fixedDec 4 x.toNat := by
  obtain ⟨n, rfl⟩ := Int.eq_ofNat_of_zero_le h0
  have hn : n < 10000 := by omega
  have hneg : ¬ ((n : Int) < 0) := by omega
  rw [fixedDec_four]
  unfold gotime.appendInt
  simp only [Int.natAbs_ofNat, hneg, if_false, Int.toNat_ofNat, List.nil_append]
  by_cases h : n < 10
  · rw [toDigits_one n h]
    have a1 : n / 10 % 10 = 0 := by omega
    have a2 : n % 10 = n := by omega
    have a3 : n / 100 % 10 = 0 := by omega
    have a4 : n / 1000 % 10 = 0 := by omega
    simp [a1, a2, a3, a4, List.replicate, digitChar_zero]
  · by_cases h2 : n < 100
    · rw [toDigits_two n (by omega) h2]
      have a1 : n / 10 % 10 = n / 10 := by omega
      have a3 : n / 100 % 10 = 0 := by omega
      have a4 : n / 1000 % 10 = 0 := by omega
      simp [a1, a3, a4, List.replicate, digitChar_zero]
    · by_cases h3 : n < 1000
      · rw [toDigits_three n (by omega) h3]
        have a3 : n / 100 % 10 = n / 100 := by omega
        have a4 : n / 1000 % 10 = 0 := by omega
        simp [a3, a4, List.replicate, digitChar_zero]
      · rw [toDigits_four n (by omega) hn]
        have a4 : n / 1000 % 10 = n / 1000 := by omega
        simp [a4]

theorem civil_month_day (days : Int) :
    1 ≤ (gotime.civil days).2.1 ∧ (gotime.civil days).2.1 ≤ 12 ∧
      1 ≤ (gotime.civil days).2.2 ∧ (gotime.civil days).2.2 ≤ 31 := by
  unfold gotime.civil
  simp only
  split_ifs <;> omega

theorem UnixUTC_bounds (unix : Int) :
    1 ≤ (gotime.UnixUTC unix).month ∧ (gotime.UnixUTC unix).month ≤ 12 ∧
    1 ≤ (gotime.UnixUTC unix).day ∧ (gotime.UnixUTC unix).day ≤ 31 ∧
    0 ≤ (gotime.UnixUTC unix).hour ∧ (gotime.UnixUTC unix).hour ≤ 23 ∧
    0 ≤ (gotime.UnixUTC unix).minute ∧ (gotime.UnixUTC unix).minute ≤ 59 ∧
    0 ≤ (gotime.UnixUTC unix).second ∧ (gotime.UnixUTC unix).second ≤ 59 := by
  have h := civil_month_day (unix / 86400)
  unfold gotime.UnixUTC
  simp only
  refine ⟨h.1, h.2.1, h.2.2.1, h.2.2.2, ?_, ?_, ?_, ?_, ?_, ?_⟩ <;> omega

theorem digitChar_mod_mem (k : Nat) : Nat.digitChar (k % 10) ∈ "0123456789".data := by
  have h : k % 10 < 10 := Nat.mod_lt _ (by decide)
  generalize k % 10 = r at h
  interval_cases r <;> decide

theorem fixedDec_digits (width n : Nat) : ∀ c ∈ (fixedDec width n).data, c ∈ "0123456789".data := by
  intro c hc
  unfold fixedDec at hc
  simp only [List.mem_map] at hc
  obtain ⟨i, _, rfl⟩ := hc
  exact digitChar_mod_mem _

theorem fixedDec_length (width n : Nat) : (fixedDec width n).data.length = width := by
  simp [fixedDec]

theorem isDigits_fixedDec (width n : Nat) : isDigits (fixedDec width n) = true := by
  unfold isDigits
  rw [List.all_eq_true]
  intro c hc
  exact decide_eq_true (fixedDec_digits width n c hc)

/-- A path element that `Clean` keeps unchanged. -/
theorem splitSep_plain (w : List Char) (hw : '/' ∉ w) :
    ∀ acc : List Char, filepath.splitSep acc w = [acc.reverse ++ w] := by
  induction w with
  | nil => intro acc; simp [filepath.splitSep]
  | cons c t ih =>
    intro acc
    have hc : c ≠ '/' := by
      intro h
      exact hw (by simp [h])
    have ht : '/' ∉ t := by
      intro h
      exact hw (by simp [h])
    simp [filepath.splitSep, hc, ih ht]

theorem splitSep_sep (w rest : List Char) (hw : '/' ∉ w) :
    ∀ acc : List Char, filepath.splitSep acc (w ++ '/' :: rest) =
      (acc.reverse ++ w) :: filepath.splitSep [] rest := by
  induction w with
  | nil => intro acc; simp [filepath.splitSep]
  | cons c t ih =>
    intro acc
    have hc : c ≠ '/' := by
      intro h
      exact hw (by simp [h])
    have ht : '/' ∉ t := by
      intro h
      exact hw (by simp [h])
    simp [filepath.splitSep, hc, ih ht]

theorem cleanStep_plain (rooted : Bool) (out : List (List Char)) (el : List Char)
    (h1 : el ≠ []) (h2 : el ≠ ['.']) (h3 : el ≠ ['.', '.']) :
    filepath.cleanStep rooted out el = el :: out := by
  simp [filepath.cleanStep, h1, h2, h3]

theorem Join_three (a b c : String)
    (ha : '/' ∉ a.data ∧ a.data ≠ [] ∧ a.data ≠ ['.'] ∧ a.data ≠ ['.', '.'])
    (hb : '/' ∉ b.data ∧ b.data ≠ [] ∧ b.data ≠ ['.'] ∧ b.data ≠ ['.', '.'])
    (hc : '/' ∉ c.data ∧ c.data ≠ [] ∧ c.data ≠ ['.'] ∧ c.data ≠ ['.', '.']) :
    filepath.Join [a, b, c] = a ++ "/" ++ b ++ "/" ++ c := by
  obtain ⟨a1, a2, a3, a4⟩ := ha
  obtain ⟨b1, b2, b3, b4⟩ := hb
  obtain ⟨c1, c2, c3, c4⟩ := hc
  have hsplit : filepath.splitSep [] (a.data ++ '/' :: (b.data ++ '/' :: c.data)) =
      [a.data, b.data, c.data] := by
    rw [splitSep_sep _ _ a1, splitSep_sep _ _ b1, splitSep_plain _ c1]
    simp
  have hhead : a.data.head? ≠ some '/' := by
    intro h
    cases hd : a.data with
    | nil => exact a2 hd
    | cons x t =>
      rw [hd] at h a1
      simp at h
      exact a1 (by simp [h])
  have hpath : List.intercalate ['/'] ([a, b, c].map String.data) =
      a.data ++ '/' :: (b.data ++ '/' :: c.data) := by
    simp [List.intercalate, List.intersperse]
  have hne : a.data ++ '/' :: (b.data ++ '/' :: c.data) ≠ [] := by simp
  have hhead2 : (a.data ++ '/' :: (b.data ++ '/' :: c.data)).head? ≠ some '/' := by
    cases hd : a.data with
    | nil => exact absurd hd a2
    | cons x t =>
      rw [hd] at hhead
      simpa using hhead
  have hfold : List.foldl (filepath.cleanStep false) [] [a.data, b.data, c.data] =
      [c.data, b.data, a.data] := by
    simp [List.foldl, cleanStep_plain, a2, a3, a4, b2, b3, b4, c2, c3, c4]
  apply String.ext
  unfold filepath.Join
  simp only [List.dropWhile_cons, a2, decide_False]
  unfold filepath.Clean
  simp only [Bool.false_eq_true, if_false, hpath, hne, hhead2, decide_False, hsplit, hfold]
  simp [List.intercalate, List.intersperse]

theorem fixedDec_strlen (width n : Nat) : (fixedDec width n).length = width := by
  simp [String.length, fixedDec]

theorem digits_no_sep (s : String) (h : ∀ c ∈ s.data, c ∈ "0123456789".data) : '/' ∉ s.data := by
  intro hm
  have := h '/' hm
  revert this
  decide

theorem SplitUTC_fixed (unix : Int)
    (hy : 1970 ≤ (gotime.UnixUTC unix).year ∧ (gotime.UnixUTC unix).year ≤ 9999) :
    layout.SplitUTC unix =
      (fixedDec 4 (gotime.UnixUTC unix).year.toNat,
       fixedDec 2 (gotime.UnixUTC unix).month.toNat ++ fixedDec 2 (gotime.UnixUTC unix).day.toNat,
       fixedDec 2 (gotime.UnixUTC unix).hour.toNat ++
         fixedDec 2 (gotime.UnixUTC unix).minute.toNat ++
         fixedDec 2 (gotime.UnixUTC unix).second.toNat) := by
  have hb := UnixUTC_bounds unix
  unfold layout.SplitUTC gotime.format2006 gotime.format0102 gotime.format150405
  simp only
  rw [appendInt_four _ (by omega) (by omega), appendInt_two _ (by omega) (by omega),
    appendInt_two _ (by omega) (by omega), appendInt_two _ (by omega) (by omega),
    appendInt_two _ (by omega) (by omega), appendInt_two _ (by omega) (by omega)]

theorem plain_of_digits (s : String) (hd : ∀ c ∈ s.data, c ∈ "0123456789".data)
    (hne : s.data ≠ []) :
    '/' ∉ s.data ∧ s.data ≠ [] ∧ s.data ≠ ['.'] ∧ s.data ≠ ['.', '.'] := by
  refine ⟨digits_no_sep s hd, hne, ?_, ?_⟩
  · intro h
    have := hd '.' (by simp [h])
    revert this
    decide
  · intro h
    have := hd '.' (by simp [h])
    revert this
    decide

/-- C6: for a creation time whose UTC year lies between 1970 and 9999 and an id
without a path separator, `SplitUTC` returns the 4-digit year, the zero-padded
4-digit month and day and the zero-padded 6-digit time of day, and `ThreadRel` is
`YYYY/MMDD/HHMMSS_id`; in particular `ThreadRel(1700000000, "abc123")` is
`2023/1114/221320_abc123`. -/
theorem ThreadRel_spec (createdUnix : Int) (id : String)
    (hy : 1970 ≤ (gotime.UnixUTC createdUnix).year ∧ (gotime.UnixUTC createdUnix).year ≤ 9999)
    (hid : '/' ∉ id.data) :
    layout.SplitUTC createdUnix =
      (fixedDec 4 (gotime.UnixUTC createdUnix).year.toNat,
       fixedDec 2 (gotime.UnixUTC createdUnix).month.toNat ++
         fixedDec 2 (gotime.UnixUTC createdUnix).day.toNat,
       fixedDec 2 (gotime.UnixUTC createdUnix).hour.toNat ++
         fixedDec 2 (gotime.UnixUTC createdUnix).minute.toNat ++
         fixedDec 2 (gotime.UnixUTC createdUnix).second.toNat) ∧
    (layout.SplitUTC createdUnix).1.length = 4 ∧
    (layout.SplitUTC createdUnix).2.1.length = 4 ∧
    (layout.SplitUTC createdUnix).2.2.length = 6 ∧
    layout.ThreadRel createdUnix id =
      (layout.SplitUTC createdUnix).1 ++ "/" ++ (layout.SplitUTC createdUnix).2.1 ++ "/" ++
        ((layout.SplitUTC createdUnix).2.2 ++ "_" ++ id) ∧
    layout.ThreadRel 1700000000 "abc123" = "2023/1114/221320_abc123" := by
  have hs := SplitUTC_fixed createdUnix hy
  refine ⟨hs, ?_, ?_, ?_, ?_, by decide⟩
  · rw [hs]; simp only [String.length_append, fixedDec_strlen]
  · rw [hs]; simp only [String.length_append, fixedDec_strlen]
  · rw [hs]; simp only [String.length_append, fixedDec_strlen]
  · unfold layout.ThreadRel
    rw [hs]
    simp only
    apply Join_three
    · exact plain_of_digits _ (fixedDec_digits _ _) (by
        intro h
        have := fixedDec_length 4 (gotime.UnixUTC createdUnix).year.toNat
        rw [h] at this
        simp at this)
    · apply plain_of_digits
      · intro c hc
        simp only [String.data_append, List.mem_append] at hc
        rcases hc with hc | hc <;> exact fixedDec_digits _ _ c hc
      · intro h
        have h2 := congrArg List.length h
        simp [fixedDec_length] at h2
        have h3 := fixedDec_length 2 (gotime.UnixUTC createdUnix).month.toNat
        rw [String.length] at h2
        omega
    · have hlen : ∀ n : Nat, ∃ c t, (fixedDec 2 n).data = c :: t ∧ c ∈ "0123456789".data := by
        intro n
        rw [fixedDec_two]
        exact ⟨_, _, rfl, digitChar_mod_mem _⟩
      obtain ⟨c, t, hct, hcd⟩ := hlen (gotime.UnixUTC createdUnix).hour.toNat
      have hcdot : c ≠ '.' := by
        intro h
        rw [h] at hcd
        revert hcd
        decide
      refine ⟨?_, ?_, ?_, ?_⟩
      · intro hm
        simp only [String.data_append, List.mem_append] at hm
        rcases hm with (((hm | hm) | hm) | hm) | hm
        · exact digits_no_sep _ (fixedDec_digits _ _) hm
        · exact digits_no_sep _ (fixedDec_digits _ _) hm
        · exact digits_no_sep _ (fixedDec_digits _ _) hm
        · revert hm; decide
        · exact hid hm
      · simp [hct]
      · simp [hct, hcdot]
      · simp [hct, hcdot]

theorem ThreadRel_spec_witness :
    layout.SplitUTC 1700000000 =
      (fixedDec 4 (gotime.UnixUTC 1700000000).year.toNat,
       fixedDec 2 (gotime.UnixUTC 1700000000).month.toNat ++
         fixedDec 2 (gotime.UnixUTC 1700000000).day.toNat,
       fixedDec 2 (gotime.UnixUTC 1700000000).hour.toNat ++
         fixedDec 2 (gotime.UnixUTC 1700000000).minute.toNat ++
         fixedDec 2 (gotime.UnixUTC 1700000000).second.toNat) ∧
    (layout.SplitUTC 1700000000).1.length = 4 ∧
    (layout.SplitUTC 1700000000).2.1.length = 4 ∧
    (layout.SplitUTC 1700000000).2.2.length = 6 ∧
    layout.ThreadRel 1700000000 "abc123" =
      (layout.SplitUTC 1700000000).1 ++ "/" ++ (layout.SplitUTC 1700000000).2.1 ++ "/" ++
        ((layout.SplitUTC 1700000000).2.2 ++ "_" ++ "abc123") ∧
    layout.ThreadRel 1700000000 "abc123" = "2023/1114/221320_abc123" :=
  ThreadRel_spec 1700000000 "abc123" (by decide) (by decide)

/-! ## The calendar of the `time` model -/

/-- The date `civil` returns for a day number is a date of that day number. -/
theorem daysFromCivil_civil (days : Int) :
    gotime.daysFromCivil (gotime.civil days).1 (gotime.civil days).2.1 (gotime.civil days).2.2 =
      days := by
  unfold gotime.civil gotime.daysFromCivil
  simp only
  generalize hz : days + 719468 = z
  generalize hera : z / 146097 = era
  generalize hdoe : z % 146097 = doe
  have h1 : z = 146097 * era + doe ∧ 0 ≤ doe ∧ doe < 146097 := by omega
  generalize hc : min (doe / 36524) 3 = c
  have hc2 : 0 ≤ c ∧ c ≤ 3 ∧ 36524 * c ≤ doe ∧ doe - 36524 * c ≤ 36524 ∧
      (c < 3 → doe - 36524 * c < 36524) := by omega
  generalize hr1 : doe - 36524 * c = r1
  generalize hq : r1 / 1461 = q
  have hq2 : 0 ≤ q ∧ q ≤ 24 ∧ 1461 * q ≤ r1 ∧ r1 < 1461 * q + 1461 := by omega
  generalize hr2 : r1 - 1461 * q = r2
  generalize ha : min (r2 / 365) 3 = a
  have ha2 : 0 ≤ a ∧ a ≤ 3 ∧ 365 * a ≤ r2 ∧ r2 - 365 * a ≤ 365 ∧
      (a < 3 → r2 - 365 * a < 365) := by omega
  generalize hdoy : r2 - 365 * a = doy
  generalize hmp : (5 * doy + 2) / 153 = mp
  have hmp2 : 0 ≤ mp ∧ mp ≤ 11 ∧ 153 * mp ≤ 5 * doy + 2 ∧ 5 * doy + 2 < 153 * mp + 153 := by
    omega
  have hmonth : (if (if mp < 10 then mp + 3 else mp - 9) > 2
      then (if mp < 10 then mp + 3 else mp - 9) - 3
      else (if mp < 10 then mp + 3 else mp - 9) + 9) = mp := by
    split_ifs <;> omega
  have hyear : (if (if mp < 10 then mp + 3 else mp - 9) ≤ 2 then
      (if (if mp < 10 then mp + 3 else mp - 9) ≤ 2 then 400 * era + 100 * c + 4 * q + a + 1
        else 400 * era + 100 * c + 4 * q + a) - 1
      else (if (if mp < 10 then mp + 3 else mp - 9) ≤ 2 then 400 * era + 100 * c + 4 * q + a + 1
        else 400 * era + 100 * c + 4 * q + a)) = 400 * era + (100 * c + 4 * q + a) := by
    split_ifs <;> omega
  rw [hmonth, hyear]
  have hyoe : 0 ≤ 100 * c + 4 * q + a ∧ 100 * c + 4 * q + a ≤ 399 := by omega
  generalize hyoe2 : 100 * c + 4 * q + a = yoe at *
  have e1 : (400 * era + yoe) / 400 = era := by omega
  have e2 : (400 * era + yoe) % 400 = yoe := by omega
  have e3 : yoe / 4 = 25 * c + q := by omega
  have e4 : yoe / 100 = c := by omega
  rw [e1, e2, e3, e4]
  omega

/-- The creation times of the years 1970 to 9999 are the seconds 0 to
253402300799. -/
theorem UnixUTC_year_range (unix : Int) (h0 : 0 ≤ unix) (h1 : unix ≤ 253402300799) :
    1970 ≤ (gotime.UnixUTC unix).year ∧ (gotime.UnixUTC unix).year ≤ 9999 := by
  unfold gotime.UnixUTC gotime.civil
  simp only
  generalize hdays : unix / 86400 = days
  have hd : 0 ≤ days ∧ days ≤ 2932896 := by omega
  generalize hz : days + 719468 = z
  have hz0 : 719468 ≤ z ∧ z ≤ 3652364 := by omega
  generalize hera : z / 146097 = era
  generalize hdoe : z % 146097 = doe
  have h2 : z = 146097 * era + doe ∧ 0 ≤ doe ∧ doe < 146097 := by omega
  have hera2 : 4 ≤ era ∧ era ≤ 24 := by omega
  generalize hc : min (doe / 36524) 3 = c
  have hc2 : 0 ≤ c ∧ c ≤ 3 ∧ 36524 * c ≤ doe ∧ doe - 36524 * c ≤ 36524 ∧
      (c < 3 → doe - 36524 * c < 36524) := by omega
  generalize hr1 : doe - 36524 * c = r1
  generalize hq : r1 / 1461 = q
  have hq2 : 0 ≤ q ∧ q ≤ 24 ∧ 1461 * q ≤ r1 ∧ r1 < 1461 * q + 1461 := by omega
  generalize hr2 : r1 - 1461 * q = r2
  generalize ha : min (r2 / 365) 3 = a
  have ha2 : 0 ≤ a ∧ a ≤ 3 ∧ 365 * a ≤ r2 ∧ r2 - 365 * a ≤ 365 ∧
      (a < 3 → r2 - 365 * a < 365) := by omega
  generalize hdoy : r2 - 365 * a = doy
  generalize hmp : (5 * doy + 2) / 153 = mp
  have hmp2 : (mp < 10 ↔ doy < 306) ∧ 0 ≤ mp ∧ mp ≤ 11 := by omega
  clear hera hdoe hc hq ha hmp hdays
  rcases (by omega : era = 4 ∨ (5 ≤ era ∧ era ≤ 23) ∨ era = 24) with he | he | he
  · subst he
    split_ifs <;> omega
  · split_ifs <;> omega
  · subst he
    split_ifs <;> omega

/-! ## Fingerprints -/

theorem subsetView_congr {F : Type} (m1 m2 : GoMap F)
    (h : ∀ k ∈ submissionKeys, m1.index k = m2.index k) : subsetView m1 = subsetView m2 := by
  unfold subsetView
  rw [h "id" (by decide), h "name" (by decide), h "subreddit" (by decide),
    h "author" (by decide), h "is_self" (by decide), h "domain" (by decide),
    h "title" (by decide), h "selftext_html" (by decide), h "selftext" (by decide),
    h "url" (by decide), h "permalink" (by decide), h "edited" (by decide),
    h "over_18" (by decide), h "spoiler" (by decide), h "locked" (by decide),
    h "stickied" (by decide), h "link_flair_text" (by decide),
    h "link_flair_css_class" (by decide)]

theorem miniView_congr {F : Type} (r1 r2 : GoMap F)
    (h : ∀ k ∈ commentKeys, r1.index k = r2.index k) : miniView r1 = miniView r2 := by
  unfold miniView
  rw [h "id" (by decide), h "parent_id" (by decide), h "author" (by decide),
    h "body" (by decide), h "body_html" (by decide), h "edited" (by decide),
    h "stickied" (by decide), h "distinguished" (by decide), h "is_submitter" (by decide),
    h "permalink" (by decide)]

theorem map_miniView_congr {F : Type} (rows1 rows2 : List (GoMap F))
    (h : List.Forall₂ (fun r1 r2 => ∀ k ∈ commentKeys, r1.index k = r2.index k) rows1 rows2) :
    rows1.map miniView = rows2.map miniView := by
  induction h with
  | nil => rfl
  | cons hab _ ih =>
    rw [List.map_cons, List.map_cons, miniView_congr _ _ hab, ih]

theorem subsetHash_ok {F : Type} (lib : Lib F) (m : GoMap F) :
    subsetHash lib (.ok m) = hashBytes lib (lib.MarshalFp (subsetView m)) := rfl

/-- C3: two submission payloads that carry the same value at each of the eighteen
selected keys have the same canonical view and the same `subsetHash`
fingerprint, and two comment row lists of equal length whose rows agree pairwise on
the ten selected comment keys have the same `threadHash` fingerprint. -/
theorem fingerprint_ignores_excluded {F : Type} (lib : Lib F) (m1 m2 : GoMap F)
    (rows1 rows2 : List (GoMap F))
    (hsub : ∀ k ∈ submissionKeys, m1.index k = m2.index k)
    (hrows : List.Forall₂ (fun r1 r2 => ∀ k ∈ commentKeys, r1.index k = r2.index k)
      rows1 rows2) :
    subsetView m1 = subsetView m2 ∧
    subsetHash lib (.ok m1) = subsetHash lib (.ok m2) ∧
    threadHash lib rows1 = threadHash lib rows2 := by
  refine ⟨subsetView_congr m1 m2 hsub, ?_, ?_⟩
  · rw [subsetHash_ok, subsetHash_ok, subsetView_congr m1 m2 hsub]
  · unfold threadHash
    rw [map_miniView_congr rows1 rows2 hrows]

theorem fingerprint_ignores_excluded_witness :
    subsetView ([("id", .string "abc"), ("title", .string "t"), ("score", .float64 5)] :
        GoMap Int) =
      subsetView [("id", .string "abc"), ("title", .string "t"), ("score", .float64 7)] ∧
    subsetHash exampleLib
        (.ok [("id", .string "abc"), ("title", .string "t"), ("score", .float64 5)]) =
      subsetHash exampleLib
        (.ok [("id", .string "abc"), ("title", .string "t"), ("score", .float64 7)]) ∧
    threadHash exampleLib [[("id", .string "c1"), ("body", .string "hi"), ("ups", .float64 1)]] =
      threadHash exampleLib [[("id", .string "c1"), ("body", .string "hi"), ("ups", .float64 2)]] :=
  fingerprint_ignores_excluded exampleLib _ _ _ _
    (by
      intro k hk
      simp only [submissionKeys, List.mem_cons, List.mem_singleton, List.not_mem_nil,
        or_false] at hk
      rcases hk with rfl | rfl | rfl | rfl | rfl | rfl | rfl | rfl | rfl | rfl | rfl | rfl |
        rfl | rfl | rfl | rfl | rfl | rfl <;> rfl)
    (List.Forall₂.cons (by
      intro k hk
      simp only [commentKeys, List.mem_cons, List.mem_singleton, List.not_mem_nil,
        or_false] at hk
      rcases hk with rfl | rfl | rfl | rfl | rfl | rfl | rfl | rfl | rfl | rfl <;> rfl)
      List.Forall₂.nil)

theorem submissionField_of_view {F : Type} (m1 m2 : GoMap F) (h : subsetView m1 = subsetView m2) :
    ∀ k ∈ submissionKeys, submissionField k (m1.index k) = submissionField k (m2.index k) := by
  intro k hk
  simp only [submissionKeys, List.mem_cons, List.mem_singleton, List.not_mem_nil,
    or_false] at hk
  rcases hk with rfl | rfl | rfl | rfl | rfl | rfl | rfl | rfl | rfl | rfl | rfl | rfl |
    rfl | rfl | rfl | rfl | rfl | rfl
  · exact congrArg Any.string (congrArg fp.ID h)
  · exact congrArg Any.string (congrArg fp.Name h)
  · exact congrArg Any.string (congrArg fp.Subreddit h)
  · exact congrArg Any.string (congrArg fp.Author h)
  · exact congrArg Any.bool (congrArg fp.IsSelf h)
  · exact congrArg Any.string (congrArg fp.Domain h)
  · exact congrArg Any.string (congrArg fp.Title h)
  · exact congrArg Any.string (congrArg fp.SelftextHTML h)
  · exact congrArg Any.string (congrArg fp.Selftext h)
  · exact congrArg Any.string (congrArg fp.URL h)
  · exact congrArg Any.string (congrArg fp.Permalink h)
  · exact congrArg fp.Edited h
  · exact congrArg Any.bool (congrArg fp.Over18 h)
  · exact congrArg Any.bool (congrArg fp.Spoiler h)
  · exact congrArg Any.bool (congrArg fp.Locked h)
  · exact congrArg Any.bool (congrArg fp.Stickied h)
  · exact congrArg Any.string (congrArg fp.LinkFlairText h)
  · exact congrArg Any.string (congrArg fp.LinkFlairCSSClass h)

theorem miniView_stickied {F : Type} (r : GoMap F) : (miniView r).Stickied = getB (r.index "stickied") := by
  unfold miniView getB
  cases r.index "stickied" <;> rfl

theorem miniView_isSubmitter {F : Type} (r : GoMap F) :
    (miniView r).IsSubmitter = getB (r.index "is_submitter") := by
  unfold miniView getB
  cases r.index "is_submitter" <;> rfl

theorem commentField_of_view {F : Type} (r1 r2 : GoMap F) (h : miniView r1 = miniView r2) :
    ∀ k ∈ commentKeys, commentField k (r1.index k) = commentField k (r2.index k) := by
  intro k hk
  simp only [commentKeys, List.mem_cons, List.mem_singleton, List.not_mem_nil,
    or_false] at hk
  rcases hk with rfl | rfl | rfl | rfl | rfl | rfl | rfl | rfl | rfl | rfl
  · exact congrArg Any.string (congrArg mini.ID h)
  · exact congrArg Any.string (congrArg mini.Parent h)
  · exact congrArg Any.string (congrArg mini.Author h)
  · exact congrArg Any.string (congrArg mini.Body h)
  · exact congrArg Any.string (congrArg mini.BodyHTML h)
  · exact congrArg mini.Edited h
  · have := congrArg mini.Stickied h
    rw [miniView_stickied, miniView_stickied] at this
    exact congrArg Any.bool this
  · exact congrArg mini.Distinguished h
  · have := congrArg mini.IsSubmitter h
    rw [miniView_isSubmitter, miniView_isSubmitter] at this
    exact congrArg Any.bool this
  · exact congrArg Any.string (congrArg mini.Permalink h)

theorem threadHash_eq {F : Type} (lib : Lib F) (rows : List (GoMap F)) :
    threadHash lib rows = hashBytes lib (lib.MarshalMinis (rows.map miniView)) := rfl

theorem digest_ne {F : Type} (lib : Lib F) (x y : Except String String) (hne : x ≠ y)
    (hcol : NoCollision lib x y) : hashBytes lib x ≠ hashBytes lib y := by
  unfold hashBytes
  cases x with
  | error e1 =>
    cases y with
    | error e2 =>
      intro h
      apply hne
      simp only [Except.error.injEq] at h
      rw [h]
    | ok b2 => intro h; cases h
  | ok b1 =>
    cases y with
    | error e2 => intro h; cases h
    | ok b2 =>
      intro h
      apply hne
      simp only [Except.ok.injEq] at h
      rw [hcol b1 b2 rfl rfl h]

/-- C4 (amended): when two submission payloads differ at a selected key in what
the canonical view keeps of the value (`getS` of it at a string field, `getB` of
it at a boolean field, the value itself at `edited`), their canonical views
differ; so do the canonical bytes when `json.Marshal` tells the two views apart,
and the fingerprints when moreover SHA-256 does not collide on the two byte
strings.  Likewise for `threadHash` when rows at the same position differ in what
the view keeps at a selected comment key. -/
theorem fingerprint_sensitive {F : Type} (lib : Lib F) (m1 m2 : GoMap F)
    (rows1 rows2 : List (GoMap F)) (k kc : String) (i : Nat) (r1 r2 : GoMap F)
    (hk : k ∈ submissionKeys)
    (hdiff : submissionField k (m1.index k) ≠ submissionField k (m2.index k))
    (hmar : lib.MarshalFp (subsetView m1) = lib.MarshalFp (subsetView m2) →
      subsetView m1 = subsetView m2)
    (hcol : NoCollision lib (lib.MarshalFp (subsetView m1)) (lib.MarshalFp (subsetView m2)))
    (hkc : kc ∈ commentKeys) (h1 : rows1[i]? = some r1) (h2 : rows2[i]? = some r2)
    (hrow : commentField kc (r1.index kc) ≠ commentField kc (r2.index kc))
    (hmarc : lib.MarshalMinis (rows1.map miniView) = lib.MarshalMinis (rows2.map miniView) →
      rows1.map miniView = rows2.map miniView)
    (hcolc : NoCollision lib (lib.MarshalMinis (rows1.map miniView))
      (lib.MarshalMinis (rows2.map miniView))) :
    subsetView m1 ≠ subsetView m2 ∧
    lib.MarshalFp (subsetView m1) ≠ lib.MarshalFp (subsetView m2) ∧
    subsetHash lib (.ok m1) ≠ subsetHash lib (.ok m2) ∧
    rows1.map miniView ≠ rows2.map miniView ∧
    lib.MarshalMinis (rows1.map miniView) ≠ lib.MarshalMinis (rows2.map miniView) ∧
    threadHash lib rows1 ≠ threadHash lib rows2 := by
  have hv : subsetView m1 ≠ subsetView m2 := fun h => hdiff (submissionField_of_view m1 m2 h k hk)
  have hb : lib.MarshalFp (subsetView m1) ≠ lib.MarshalFp (subsetView m2) := fun h => hv (hmar h)
  have hvc : rows1.map miniView ≠ rows2.map miniView := by
    intro h
    have hi : (rows1.map miniView)[i]? = (rows2.map miniView)[i]? := by rw [h]
    rw [List.getElem?_map, List.getElem?_map, h1, h2] at hi
    simp only [Option.map_some', Option.some.injEq] at hi
    exact hrow (commentField_of_view r1 r2 hi kc hkc)
  have hbc : lib.MarshalMinis (rows1.map miniView) ≠ lib.MarshalMinis (rows2.map miniView) :=
    fun h => hvc (hmarc h)
  refine ⟨hv, hb, ?_, hvc, hbc, ?_⟩
  · rw [subsetHash_ok, subsetHash_ok]
    exact digest_ne lib _ _ hb hcol
  · rw [threadHash_eq, threadHash_eq]
    exact digest_ne lib _ _ hbc hcolc

theorem fingerprint_sensitive_witness :
    subsetView ([("id", .string "abc"), ("title", .string "old")] : GoMap Int) ≠
      subsetView [("id", .string "abc"), ("title", .string "new")] ∧
    exampleLib.MarshalFp (subsetView [("id", .string "abc"), ("title", .string "old")]) ≠
      exampleLib.MarshalFp (subsetView [("id", .string "abc"), ("title", .string "new")]) ∧
    subsetHash exampleLib (.ok [("id", .string "abc"), ("title", .string "old")]) ≠
      subsetHash exampleLib (.ok [("id", .string "abc"), ("title", .string "new")]) ∧
    ([[("id", .string "c1"), ("body", .string "hi")]] : List (GoMap Int)).map miniView ≠
      ([[("id", .string "c1"), ("body", .string "ho")]] : List (GoMap Int)).map miniView ∧
    exampleLib.MarshalMinis
        (([[("id", .string "c1"), ("body", .string "hi")]] : List (GoMap Int)).map miniView) ≠
      exampleLib.MarshalMinis
        (([[("id", .string "c1"), ("body", .string "ho")]] : List (GoMap Int)).map miniView) ∧
    threadHash exampleLib [[("id", .string "c1"), ("body", .string "hi")]] ≠
      threadHash exampleLib [[("id", .string "c1"), ("body", .string "ho")]] :=
  fingerprint_sensitive exampleLib _ _ _ _ "title" "body" 0
    [("id", .string "c1"), ("body", .string "hi")] [("id", .string "c1"), ("body", .string "ho")]
    (by decide)
    (by
      intro h
      have h2 : (Any.string "old" : Any Int) = Any.string "new" := h
      simp only [Any.string.injEq] at h2
      exact absurd h2 (by decide))
    (by intro h; have h3 := Except.ok.inj h; exact absurd h3 (by decide))
    (by
      intro b1 b2 hb1 hb2
      cases hb1
      cases hb2
      intro h
      exact absurd h (by decide))
    (by decide) rfl rfl
    (by
      intro h
      have h2 : (Any.string "hi" : Any Int) = Any.string "ho" := h
      simp only [Any.string.injEq] at h2
      exact absurd h2 (by decide))
    (by intro h; have h3 := Except.ok.inj h; exact absurd h3 (by decide))
    (by
      intro b1 b2 hb1 hb2
      cases hb1
      cases hb2
      intro h
      exact absurd h (by decide))

/-- C4 as stated fails: a payload whose `link_flair_text` is the empty string and
one where it is `null` differ at a selected key, yet have the same canonical
view, hence the same canonical bytes and fingerprint whatever the serialiser and
digest; the same holds for a comment row whose `body` is `""` or `null`. -/
theorem fingerprint_blind_to_coercion :
    "link_flair_text" ∈ submissionKeys ∧
    GoMap.index ([("id", .string "abc"), ("link_flair_text", .string "")] : GoMap Int)
        "link_flair_text" ≠
      GoMap.index ([("id", .string "abc"), ("link_flair_text", .nil)] : GoMap Int)
        "link_flair_text" ∧
    (∀ lib : Lib Int,
      lib.MarshalFp (subsetView [("id", .string "abc"), ("link_flair_text", .string "")]) =
        lib.MarshalFp (subsetView [("id", .string "abc"), ("link_flair_text", .nil)]) ∧
      subsetHash lib (.ok [("id", .string "abc"), ("link_flair_text", .string "")]) =
        subsetHash lib (.ok [("id", .string "abc"), ("link_flair_text", .nil)])) ∧
    "body" ∈ commentKeys ∧
    GoMap.index ([("id", .string "c1"), ("body", .string "")] : GoMap Int) "body" ≠
      GoMap.index ([("id", .string "c1"), ("body", .nil)] : GoMap Int) "body" ∧
    (∀ lib : Lib Int,
      threadHash lib [[("id", .string "c1"), ("body", .string "")]] =
        threadHash lib [[("id", .string "c1"), ("body", .nil)]]) := by
  refine ⟨by decide, ?_, ?_, by decide, ?_, ?_⟩
  · intro h
    have h2 : (Any.string "" : Any Int) = Any.nil := h
    cases h2
  · intro lib
    exact ⟨rfl, rfl⟩
  · intro h
    have h2 : (Any.string "" : Any Int) = Any.nil := h
    cases h2
  · intro lib
    rfl

/-! ## The sort of `fetchCommentsTree` -/

theorem rowLess_iff {F : Type} [LinearOrder F] [Zero F] (a b : GoMap F) :
    rowLess a b = true ↔ keyLex a < keyLex b := by
  unfold rowLess keyLex
  simp only [Prod.Lex.lt_iff]
  by_cases hp : getS (a.index "parent_id") = getS (b.index "parent_id")
  · have hp2 : (getS (a.index "parent_id")).data = (getS (b.index "parent_id")).data := by rw [hp]
    by_cases hc : getF (a.index "created_utc") = getF (b.index "created_utc")
    · simp [hp, hc]
    · have hc2 : ¬ (getF (b.index "created_utc") = getF (a.index "created_utc")) :=
        fun h => hc h.symm
      simp [hp, hc]
  · have hp2 : ¬ (getS (a.index "parent_id")).data = (getS (b.index "parent_id")).data :=
      fun h => hp (String.ext h)
    simp [hp, hp2]

theorem keyLex_eq_iff {F : Type} [LinearOrder F] [Zero F] (a b : GoMap F) :
    keyLex a = keyLex b ↔ sortKey a = sortKey b := by
  unfold keyLex sortKey
  constructor
  · intro h
    have h1 := congrArg (fun x => (ofLex x).1) h
    have h2 := congrArg (fun x => (ofLex (ofLex x).2).1) h
    have h3 := congrArg (fun x => (ofLex (ofLex x).2).2) h
    simp only [ofLex_toLex] at h1 h2 h3
    rw [String.ext h1, h2, String.ext h3]
  · intro h
    simp only [Prod.mk.injEq] at h
    rw [h.1, h.2.1, h.2.2]

theorem rowLE_total {F : Type} [LinearOrder F] [Zero F] (a b : GoMap F) :
    rowLess b a = false ∨ rowLess a b = false := by
  rcases le_total (keyLex a) (keyLex b) with h | h
  · left
    rw [← Bool.not_eq_true, rowLess_iff]
    exact not_lt.mpr h
  · right
    rw [← Bool.not_eq_true, rowLess_iff]
    exact not_lt.mpr h

theorem rowLE_trans {F : Type} [LinearOrder F] [Zero F] (a b c : GoMap F)
    (h1 : rowLess b a = false) (h2 : rowLess c b = false) : rowLess c a = false := by
  rw [← Bool.not_eq_true, rowLess_iff, not_lt] at h1 h2 ⊢
  exact le_trans h1 h2

theorem sortFlat_perm {F : Type} [LinearOrder F] [Zero F] (flat : List (GoMap F)) :
    (sortFlat flat).Perm flat :=
  List.perm_insertionSort _ flat

theorem sortFlat_sorted {F : Type} [LinearOrder F] [Zero F] (flat : List (GoMap F)) :
    List.Sorted (fun a b : GoMap F => rowLess b a = false) (sortFlat flat) :=
  @List.sorted_insertionSort _ _ _ ⟨rowLE_total⟩ ⟨rowLE_trans⟩ flat

theorem sortFlat_strict {F : Type} [LinearOrder F] [Zero F] (flat : List (GoMap F))
    (hkeys : (flat.map sortKey).Nodup) :
    List.Sorted (fun a b : GoMap F => rowLess a b = true) (sortFlat flat) := by
  have hnd : ((sortFlat flat).map sortKey).Nodup :=
    ((sortFlat_perm flat).map sortKey).nodup_iff.mpr hkeys
  have hpw : List.Pairwise (fun a b : GoMap F => sortKey a ≠ sortKey b) (sortFlat flat) :=
    List.pairwise_map.mp hnd
  have hboth := List.Pairwise.and (sortFlat_sorted flat) hpw
  refine List.Pairwise.imp ?_ hboth
  intro a b hab
  obtain ⟨hle, hne⟩ := hab
  rw [rowLess_iff]
  rw [← Bool.not_eq_true, rowLess_iff, not_lt] at hle
  have hne2 : keyLex a ≠ keyLex b := fun h => hne ((keyLex_eq_iff a b).mp h)
  exact lt_of_le_of_ne hle hne2

/-- C9: for two flattened row lists that are permutations of each other and whose
sort keys `(parent_id, created_utc, id)` are pairwise distinct, the stable sort
of `fetchCommentsTree` yields the same row sequence, so `fetchCommentsTree`
returns the same rows and `threadHash` the same fingerprint for both fetches. -/
theorem fetchCommentsTree_order_independent {F : Type} [LinearOrder F] [Zero F] (lib : Lib F)
    (flat1 flat2 : List (GoMap F)) (hperm : flat1.Perm flat2)
    (hkeys : (flat1.map sortKey).Nodup) :
    sortFlat flat1 = sortFlat flat2 ∧
    fetchCommentsTree (.ok flat1) = fetchCommentsTree (.ok flat2) ∧
    threadHash lib (sortFlat flat1) = threadHash lib (sortFlat flat2) := by
  have hkeys2 : (flat2.map sortKey).Nodup := (hperm.map sortKey).nodup_iff.mp hkeys
  have hp : (sortFlat flat1).Perm (sortFlat flat2) :=
    ((sortFlat_perm flat1).trans hperm).trans (sortFlat_perm flat2).symm
  have hanti : IsAntisymm (GoMap F) (fun a b => rowLess a b = true) :=
    ⟨fun a b h1 h2 => by
      rw [rowLess_iff] at h1 h2
      exact absurd h1 (not_lt.mpr (le_of_lt h2))⟩
  have heq : sortFlat flat1 = sortFlat flat2 :=
    @List.eq_of_perm_of_sorted _ _ hanti _ _ hp (sortFlat_strict flat1 hkeys)
      (sortFlat_strict flat2 hkeys2)
  refine ⟨heq, ?_, ?_⟩
  · unfold fetchCommentsTree
    simp only [heq]
  · rw [heq]

theorem fetchCommentsTree_order_independent_witness :
    sortFlat ([[("parent_id", .string "t3_x"), ("created_utc", .float64 20), ("id", .string "b")],
        [("parent_id", .string "t3_x"), ("created_utc", .float64 10), ("id", .string "a")]] :
        List (GoMap Int)) =
      sortFlat [[("parent_id", .string "t3_x"), ("created_utc", .float64 10), ("id", .string "a")],
        [("parent_id", .string "t3_x"), ("created_utc", .float64 20), ("id", .string "b")]] ∧
    fetchCommentsTree (.ok ([[("parent_id", .string "t3_x"), ("created_utc", .float64 20),
          ("id", .string "b")],
        [("parent_id", .string "t3_x"), ("created_utc", .float64 10), ("id", .string "a")]] :
        List (GoMap Int))) =
      fetchCommentsTree (.ok [[("parent_id", .string "t3_x"), ("created_utc", .float64 10),
          ("id", .string "a")],
        [("parent_id", .string "t3_x"), ("created_utc", .float64 20), ("id", .string "b")]]) ∧
    threadHash exampleLib (sortFlat [[("parent_id", .string "t3_x"), ("created_utc", .float64 20),
          ("id", .string "b")],
        [("parent_id", .string "t3_x"), ("created_utc", .float64 10), ("id", .string "a")]]) =
      threadHash exampleLib (sortFlat [[("parent_id", .string "t3_x"),
          ("created_utc", .float64 10), ("id", .string "a")],
        [("parent_id", .string "t3_x"), ("created_utc", .float64 20), ("id", .string "b")]]) :=
  fetchCommentsTree_order_independent exampleLib _ _ (List.Perm.swap _ _ []) (by decide)

/-! ## Latest-capture selection -/

/-- The invariant of the selection loop after the files `done`. -/
theorem selectStep_inv {F : Type} (toInt64 : F → Int)
    (readFile : String → Except String (submissionLite F)) (cutoff : Int)
    (done : List String) (m : String → Option capInfo) (f : String)
    (hnone : ∀ id, m id = none → ∀ g ∈ done, ∀ cap, ¬ ReadsCapture toInt64 readFile cutoff g id cap)
    (hsome : ∀ id info, m id = some info →
      info.Path ∈ done ∧ ReadsCapture toInt64 readFile cutoff info.Path id info.Capture ∧
      ∀ g ∈ done, ∀ cap, ReadsCapture toInt64 readFile cutoff g id cap →
        cap.data ≤ info.Capture.data) :
    (∀ id, selectStep toInt64 readFile cutoff m f id = none →
      ∀ g ∈ done ++ [f], ∀ cap, ¬ ReadsCapture toInt64 readFile cutoff g id cap) ∧
    (∀ id info, selectStep toInt64 readFile cutoff m f id = some info →
      info.Path ∈ done ++ [f] ∧ ReadsCapture toInt64 readFile cutoff info.Path id info.Capture ∧
      ∀ g ∈ done ++ [f], ∀ cap, ReadsCapture toInt64 readFile cutoff g id cap →
        cap.data ≤ info.Capture.data) := by
  -- a file that is no capture of any post leaves everything as it was
  have skip : (∀ id cap, ¬ ReadsCapture toInt64 readFile cutoff f id cap) →
      (∀ id, m id = none →
        ∀ g ∈ done ++ [f], ∀ cap, ¬ ReadsCapture toInt64 readFile cutoff g id cap) ∧
      (∀ id info, m id = some info →
        info.Path ∈ done ++ [f] ∧ ReadsCapture toInt64 readFile cutoff info.Path id info.Capture ∧
        ∀ g ∈ done ++ [f], ∀ cap, ReadsCapture toInt64 readFile cutoff g id cap →
          cap.data ≤ info.Capture.data) := by
    intro hno
    constructor
    · intro id hid g hg cap
      rcases List.mem_append.mp hg with h | h
      · exact hnone id hid g h cap
      · simp only [List.mem_singleton] at h
        subst h
        exact hno id cap
    · intro id info hid
      obtain ⟨h1, h2, h3⟩ := hsome id info hid
      refine ⟨List.mem_append_left _ h1, h2, ?_⟩
      intro g hg cap hcap
      rcases List.mem_append.mp hg with h | h
      · exact h3 g h cap hcap
      · simp only [List.mem_singleton] at h
        subst h
        exact absurd hcap (hno id cap)
  unfold selectStep
  cases hread : readOneSubmission readFile f with
  | error err =>
    simp only
    apply skip
    rintro id cap ⟨sl, hsl, _⟩
    rw [hread] at hsl
    cases hsl
  | ok p =>
    obtain ⟨sl, capture⟩ := p
    simp only
    by_cases hcut : toInt64 sl.CreatedUTC < cutoff
    · simp only [hcut, if_true]
      apply skip
      rintro id cap ⟨sl2, hsl, _, hge⟩
      rw [hread] at hsl
      simp only [Except.ok.injEq, Prod.mk.injEq] at hsl
      rw [← hsl.1] at hge
      omega
    · simp only [hcut, if_false]
      have hcapf : ReadsCapture toInt64 readFile cutoff f sl.ID capture :=
        ⟨sl, hread, rfl, by omega⟩
      have honly : ∀ id cap, ReadsCapture toInt64 readFile cutoff f id cap →
          id = sl.ID ∧ cap = capture := by
        rintro id cap ⟨sl2, hsl, hid, _⟩
        rw [hread] at hsl
        simp only [Except.ok.injEq, Prod.mk.injEq] at hsl
        exact ⟨by rw [← hid, ← hsl.1], hsl.2.symm⟩
      -- the map after the entry of the post was replaced by this file
      have upd : (∀ g ∈ done, ∀ cap, ReadsCapture toInt64 readFile cutoff g sl.ID cap →
            cap.data ≤ capture.data) →
          (∀ id, (fun k => if k = sl.ID then
              some (⟨f, toInt64 sl.CreatedUTC, capture⟩ : capInfo) else m k) id = none →
            ∀ g ∈ done ++ [f], ∀ cap, ¬ ReadsCapture toInt64 readFile cutoff g id cap) ∧
          (∀ id info, (fun k => if k = sl.ID then
              some (⟨f, toInt64 sl.CreatedUTC, capture⟩ : capInfo) else m k) id = some info →
            info.Path ∈ done ++ [f] ∧
            ReadsCapture toInt64 readFile cutoff info.Path id info.Capture ∧
            ∀ g ∈ done ++ [f], ∀ cap, ReadsCapture toInt64 readFile cutoff g id cap →
              cap.data ≤ info.Capture.data) := by
        intro hold
        constructor
        · intro id hid g hg cap hcap
          by_cases hk : id = sl.ID
          · simp [hk] at hid
          · simp only [hk, if_false] at hid
            rcases List.mem_append.mp hg with h | h
            · exact hnone id hid g h cap hcap
            · simp only [List.mem_singleton] at h
              subst h
              exact hk (honly id cap hcap).1
        · intro id info hid
          by_cases hk : id = sl.ID
          · simp only [hk, if_true, Option.some.injEq] at hid
            subst hid
            subst hk
            refine ⟨by simp, hcapf, ?_⟩
            intro g hg cap hcap
            rcases List.mem_append.mp hg with h | h
            · exact hold g h cap hcap
            · simp only [List.mem_singleton] at h
              subst h
              rw [(honly _ cap hcap).2]
          · simp only [hk, if_false] at hid
            obtain ⟨h1, h2, h3⟩ := hsome id info hid
            refine ⟨List.mem_append_left _ h1, h2, ?_⟩
            intro g hg cap hcap
            rcases List.mem_append.mp hg with h | h
            · exact h3 g h cap hcap
            · simp only [List.mem_singleton] at h
              subst h
              exact absurd (honly id cap hcap).1 hk
      cases hm : m sl.ID with
      | none =>
        simp only
        apply upd
        intro g hg cap hcap
        exact absurd hcap (hnone sl.ID hm g hg cap)
      | some old =>
        simp only
        obtain ⟨o1, o2, o3⟩ := hsome sl.ID old hm
        by_cases hlt : old.Capture.data < capture.data
        · simp only [hlt, if_true]
          apply upd
          intro g hg cap hcap
          exact le_of_lt (lt_of_le_of_lt (o3 g hg cap hcap) hlt)
        · simp only [hlt, if_false]
          constructor
          · intro id hid g hg cap hcap
            rcases List.mem_append.mp hg with h | h
            · exact hnone id hid g h cap hcap
            · simp only [List.mem_singleton] at h
              subst h
              rw [(honly id cap hcap).1, hm] at hid
              cases hid
          · intro id info hid
            obtain ⟨h1, h2, h3⟩ := hsome id info hid
            refine ⟨List.mem_append_left _ h1, h2, ?_⟩
            intro g hg cap hcap
            rcases List.mem_append.mp hg with h | h
            · exact h3 g h cap hcap
            · simp only [List.mem_singleton] at h
              subst h
              obtain ⟨e1, e2⟩ := honly id cap hcap
              subst e1
              rw [hm] at hid
              simp only [Option.some.injEq] at hid
              subst hid
              rw [e2]
              exact not_lt.mp hlt

theorem selectFold_inv {F : Type} (toInt64 : F → Int)
    (readFile : String → Except String (submissionLite F)) (cutoff : Int) :
    ∀ (rest done : List String) (m : String → Option capInfo),
    (∀ id, m id = none → ∀ g ∈ done, ∀ cap, ¬ ReadsCapture toInt64 readFile cutoff g id cap) →
    (∀ id info, m id = some info →
      info.Path ∈ done ∧ ReadsCapture toInt64 readFile cutoff info.Path id info.Capture ∧
      ∀ g ∈ done, ∀ cap, ReadsCapture toInt64 readFile cutoff g id cap →
        cap.data ≤ info.Capture.data) →
    (∀ id, rest.foldl (selectStep toInt64 readFile cutoff) m id = none →
      ∀ g ∈ done ++ rest, ∀ cap, ¬ ReadsCapture toInt64 readFile cutoff g id cap) ∧
    (∀ id info, rest.foldl (selectStep toInt64 readFile cutoff) m id = some info →
      info.Path ∈ done ++ rest ∧
      ReadsCapture toInt64 readFile cutoff info.Path id info.Capture ∧
      ∀ g ∈ done ++ rest, ∀ cap, ReadsCapture toInt64 readFile cutoff g id cap →
        cap.data ≤ info.Capture.data) := by
  intro rest
  induction rest with
  | nil =>
    intro done m h1 h2
    simp only [List.foldl_nil, List.append_nil]
    exact ⟨h1, h2⟩
  | cons f t ih =>
    intro done m h1 h2
    obtain ⟨s1, s2⟩ := selectStep_inv toInt64 readFile cutoff done m f h1 h2
    have := ih (done ++ [f]) (selectStep toInt64 readFile cutoff m f) s1 s2
    simpa [List.foldl_cons, List.append_assoc] using this

theorem takeWhile_append_stop {α : Type} (p : α → Bool) (w rest : List α) (x : α)
    (hw : ∀ c ∈ w, p c = true) (hx : p x = false) :
    (w ++ x :: rest).takeWhile p = w := by
  induction w with
  | nil => simp [List.takeWhile, hx]
  | cons c t ih =>
    have hc : p c = true := hw c (by simp)
    have ht : ∀ c ∈ t, p c = true := fun c hc => hw c (by simp [hc])
    simp [List.takeWhile, hc, ih ht]

/-- The base name of `dir/name.jsonl` is `name.jsonl`. -/
theorem Base_of_capture_path (dir name : String) (hname : '/' ∉ name.data) :
    filepath.Base (dir ++ "/" ++ name ++ ".jsonl") = name ++ ".jsonl" := by
  have hdata : (dir ++ "/" ++ name ++ ".jsonl").data =
      dir.data ++ '/' :: (name.data ++ ['.', 'j', 's', 'o', 'n', 'l']) := by
    simp
  have hrev : (dir.data ++ '/' :: (name.data ++ ['.', 'j', 's', 'o', 'n', 'l'])).reverse =
      'l' :: (['n', 'o', 's', 'j', '.'] ++ name.data.reverse) ++ '/' :: dir.data.reverse := by
    simp
  have hall : ∀ c ∈ 'l' :: (['n', 'o', 's', 'j', '.'] ++ name.data.reverse),
      (fun c => decide (c ≠ '/')) c = true := by
    intro c hc
    simp only [List.mem_cons, List.mem_append, List.mem_reverse, List.not_mem_nil,
      or_false] at hc
    simp only [ne_eq, decide_not, Bool.not_eq_true', decide_eq_false_iff_not]
    intro h
    subst h
    rcases hc with hc | (hc | hc | hc | hc | hc) | hc
    · exact absurd hc (by decide)
    · exact absurd hc (by decide)
    · exact absurd hc (by decide)
    · exact absurd hc (by decide)
    · exact absurd hc (by decide)
    · exact absurd hc (by decide)
    · exact hname hc
  apply String.ext
  unfold filepath.Base
  rw [hdata]
  have hne : dir.data ++ '/' :: (name.data ++ ['.', 'j', 's', 'o', 'n', 'l']) ≠ [] := by simp
  simp only [hne, if_false]
  rw [hrev]
  have hdrop : List.dropWhile (fun c => decide (c = '/'))
      ('l' :: (['n', 'o', 's', 'j', '.'] ++ name.data.reverse) ++ '/' :: dir.data.reverse) =
      'l' :: (['n', 'o', 's', 'j', '.'] ++ name.data.reverse) ++ '/' :: dir.data.reverse := by
    simp [List.dropWhile]
  rw [hdrop, takeWhile_append_stop _ _ _ _ hall (by simp)]
  simp

/-- The capture marker of `dir/name.jsonl` is `name`. -/
theorem marker_of_capture_path (dir name : String) (hname : '/' ∉ name.data) :
    strings.TrimSuffix (filepath.Base (dir ++ "/" ++ name ++ ".jsonl")) ".jsonl" = name := by
  rw [Base_of_capture_path dir name hname]
  unfold strings.TrimSuffix
  have hs : strings.HasSuffix (name ++ ".jsonl") ".jsonl" = true :=
    (HasSuffix_iff _ _).mpr ⟨name, rfl⟩
  rw [hs]
  apply String.ext
  simp

theorem readsCapture_iff {F : Type} (toInt64 : F → Int)
    (readFile : String → Except String (submissionLite F)) (cutoff : Int)
    (f id capture : String) :
    ReadsCapture toInt64 readFile cutoff f id capture ↔
      IsCapture toInt64 readFile cutoff f id capture := by
  unfold ReadsCapture IsCapture readOneSubmission
  constructor
  · rintro ⟨sl, hread, hid, hcut⟩
    cases hf : readFile f with
    | error e => rw [hf] at hread; cases hread
    | ok m =>
      rw [hf] at hread
      simp only [Except.ok.injEq, Prod.mk.injEq] at hread
      exact ⟨sl, by rw [hread.1], hid, hcut, hread.2.symm⟩
  · rintro ⟨sl, hread, hid, hcut, hcap⟩
    refine ⟨sl, ?_, hid, hcut⟩
    rw [hread, hcap]

theorem readFile_of_readOne {F : Type} (readFile : String → Except String (submissionLite F))
    (f : String) (sl : submissionLite F) (cap : String)
    (h : readOneSubmission readFile f = .ok (sl, cap)) : readFile f = .ok sl := by
  unfold readOneSubmission at h
  cases hf : readFile f with
  | error e => rw [hf] at h; cases h
  | ok m =>
    rw [hf] at h
    simp only [Except.ok.injEq, Prod.mk.injEq] at h
    rw [h.1]

theorem selectStep_created {F : Type} (toInt64 : F → Int)
    (readFile : String → Except String (submissionLite F)) (cutoff : Int)
    (m : String → Option capInfo) (f : String)
    (hm : ∀ id info, m id = some info →
      ∃ sl, readFile info.Path = .ok sl ∧ info.CreatedUnix = toInt64 sl.CreatedUTC) :
    ∀ id info, selectStep toInt64 readFile cutoff m f id = some info →
      ∃ sl, readFile info.Path = .ok sl ∧ info.CreatedUnix = toInt64 sl.CreatedUTC := by
  have upd : ∀ (sl : submissionLite F) (capture : String), readFile f = .ok sl →
      ∀ id info, (fun k => if k = sl.ID then
        some (⟨f, toInt64 sl.CreatedUTC, capture⟩ : capInfo) else m k) id = some info →
      ∃ sl, readFile info.Path = .ok sl ∧ info.CreatedUnix = toInt64 sl.CreatedUTC := by
    intro sl capture hf id info hid
    by_cases hk : id = sl.ID
    · simp only [hk, if_true, Option.some.injEq] at hid
      subst hid
      exact ⟨sl, hf, rfl⟩
    · simp only [hk, if_false] at hid
      exact hm id info hid
  unfold selectStep
  cases hread : readOneSubmission readFile f with
  | error err => exact hm
  | ok p =>
    obtain ⟨sl, capture⟩ := p
    have hf := readFile_of_readOne readFile f sl capture hread
    simp only
    split_ifs
    · exact hm
    · cases hold : m sl.ID with
      | none => exact upd sl capture hf
      | some old =>
        simp only
        split_ifs
        · exact upd sl capture hf
        · exact hm

theorem selectFold_created {F : Type} (toInt64 : F → Int)
    (readFile : String → Except String (submissionLite F)) (cutoff : Int) :
    ∀ (rest : List String) (m : String → Option capInfo),
    (∀ id info, m id = some info →
      ∃ sl, readFile info.Path = .ok sl ∧ info.CreatedUnix = toInt64 sl.CreatedUTC) →
    ∀ id info, rest.foldl (selectStep toInt64 readFile cutoff) m id = some info →
      ∃ sl, readFile info.Path = .ok sl ∧ info.CreatedUnix = toInt64 sl.CreatedUTC := by
  intro rest
  induction rest with
  | nil => intro m hm; exact hm
  | cons f t ih =>
    intro m hm
    rw [List.foldl_cons]
    exact ih _ (selectStep_created toInt64 readFile cutoff m f hm)

/-- C8: after the selection loop of the comments driver, `byPost` has an entry for
a post id exactly when some readable capture file of that id has
`created_utc >= cutoff`; the entry is such a capture, with its path, creation
time and capture marker, and its capture marker is lexicographically greater than
or equal to the marker of every capture of that id with `created_utc >= cutoff`.
The capture marker of a file is its base file name without `.jsonl`: for
`dir/name.jsonl` the function `readOneSubmission` returns the marker `name`. -/
theorem selectLatest_spec {F : Type} (toInt64 : F → Int)
    (readFile : String → Except String (submissionLite F)) (cutoff : Int)
    (files : List String) (id : String) :
    ((selectLatest toInt64 readFile cutoff files id).isSome = true ↔
      ∃ f ∈ files, ∃ cap, IsCapture toInt64 readFile cutoff f id cap) ∧
    (∀ info, selectLatest toInt64 readFile cutoff files id = some info →
      info.Path ∈ files ∧ IsCapture toInt64 readFile cutoff info.Path id info.Capture ∧
      (∃ sl, readFile info.Path = .ok sl ∧ info.CreatedUnix = toInt64 sl.CreatedUTC) ∧
      ∀ f ∈ files, ∀ cap, IsCapture toInt64 readFile cutoff f id cap → cap ≤ info.Capture) ∧
    (∀ (dir name : String) (sl : submissionLite F), '/' ∉ name.data →
      readFile (dir ++ "/" ++ name ++ ".jsonl") = .ok sl →
      readOneSubmission readFile (dir ++ "/" ++ name ++ ".jsonl") = .ok (sl, name)) := by
  obtain ⟨h1, h2⟩ := selectFold_inv toInt64 readFile cutoff (sort.Strings files) []
    (fun _ => none) (by intro _ _ g hg; simp at hg) (by intro _ _ h; cases h)
  have h3 := selectFold_created toInt64 readFile cutoff (sort.Strings files) (fun _ => none)
    (by intro _ _ h; cases h)
  simp only [List.nil_append] at h1 h2
  have hmem : ∀ g, g ∈ sort.Strings files ↔ g ∈ files := fun g => (sort_Strings_perm files).mem_iff
  have hsel : selectLatest toInt64 readFile cutoff files =
      (sort.Strings files).foldl (selectStep toInt64 readFile cutoff) (fun _ => none) := rfl
  rw [hsel]
  refine ⟨⟨?_, ?_⟩, ?_, ?_⟩
  · intro hs
    obtain ⟨info, hinfo⟩ := Option.isSome_iff_exists.mp hs
    obtain ⟨a, b, _⟩ := h2 id info hinfo
    exact ⟨info.Path, (hmem _).mp a, info.Capture, (readsCapture_iff _ _ _ _ _ _).mp b⟩
  · rintro ⟨f, hf, cap, hcap⟩
    by_contra hnot
    have hn : (sort.Strings files).foldl (selectStep toInt64 readFile cutoff)
        (fun _ => none) id = none := by
      cases hv : (sort.Strings files).foldl (selectStep toInt64 readFile cutoff)
        (fun _ => none) id with
      | none => rfl
      | some v => rw [hv] at hnot; simp at hnot
    exact h1 id hn f ((hmem f).mpr hf) cap ((readsCapture_iff _ _ _ _ _ _).mpr hcap)
  · intro info hinfo
    obtain ⟨a, b, c⟩ := h2 id info hinfo
    refine ⟨(hmem _).mp a, (readsCapture_iff _ _ _ _ _ _).mp b, h3 id info hinfo, ?_⟩
    intro f hf cap hcap
    exact String.le_iff_toList_le.mpr
      (c f ((hmem f).mpr hf) cap ((readsCapture_iff _ _ _ _ _ _).mpr hcap))
  · intro dir name sl hname hread
    unfold readOneSubmission
    rw [hread, marker_of_capture_path dir name hname]

/-! ## Failures of a single entity -/

/-- In the comments driver a post whose fetch or hash fails is skipped: its
directory is made, no file is written, no counter moves, and the loop goes on
with the later posts. -/
theorem commentsLoop_skips_failed_post {F : Type} [LinearOrder F] [Zero F]
    (env : CommentsEnv F) (lib : Lib F) (root sub : String)
    (byPost : String → Option capInfo) (st : CommentsState) (pid : String)
    (later : List String) (info : capInfo) (sl : submissionLite F) (cap : String)
    (hinfo : byPost pid = some info)
    (hread : readOneSubmission env.readFile info.Path = .ok (sl, cap))
    (hfail : (∃ e, fetchCommentsTree (env.fetch sl.ID) = .error e) ∨
      ∃ rows e, fetchCommentsTree (env.fetch sl.ID) = .ok rows ∧ rows.length ≠ 0 ∧
        threadHash lib rows = .error e) :
    commentsLoop env lib root sub byPost (pid :: later) st =
      commentsLoop env lib root sub byPost later
        { st with tree := (st.tree.set
            (filepath.Join [layout.Base root sub, "comments",
              layout.ThreadRel info.CreatedUnix sl.ID])
            (mkdirAll (st.tree (filepath.Join [layout.Base root sub, "comments",
              layout.ThreadRel info.CreatedUnix sl.ID])))) } := by
  have hstep : commentsStep env lib root sub byPost st pid =
      { st with tree := (st.tree.set
          (filepath.Join [layout.Base root sub, "comments",
            layout.ThreadRel info.CreatedUnix sl.ID])
          (mkdirAll (st.tree (filepath.Join [layout.Base root sub, "comments",
            layout.ThreadRel info.CreatedUnix sl.ID])))) } := by
    unfold commentsStep
    rw [hinfo]
    simp only [hread]
    rcases hfail with ⟨e, he⟩ | ⟨rows, e, hrows, hlen, hhash⟩
    · rw [he]
    · rw [hrows]
      simp only [hlen, if_false, hhash]
  unfold commentsLoop
  rw [List.foldl_cons, hstep]

/-- In the submissions driver a record that `createdIDName` rejects ends the
process with status 1, whatever records follow. -/
theorem submissionsPage_exits {F : Type} (toInt64 : F → Int) (lib : Lib F) (root sub : String)
    (cutoff : Int) (nowStr : String) (c : Except String (GoMap F))
    (cs : List (Except String (GoMap F))) (st : SubmissionsState) (e : String)
    (hbad : createdIDName toInt64 c = .error e) :
    submissionsPage toInt64 lib root sub cutoff nowStr (c :: cs) st = .exited 1 st := by
  unfold submissionsPage
  rw [hbad]

/-- C7 fails on the code: on a page of the submissions driver whose first record
lacks `created_utc` and whose second record is a novel submission inside the
window, the run ends with exit status 1 and the second record is not processed
(its directory is not even made), although alone it is written; the comments
driver, on a post whose fetch fails, goes on and writes the next post. -/
theorem submissionsPage_exits_on_bad_record :
    (submissionsPage id exampleLib "data" "golang" 1699000000 "231114221320"
      [.ok [("id", .string "bad")], .ok (examplePost "abc123" "t" 1700000000)]
      emptySubmissions).exitCode = some 1 ∧
    (submissionsPage id exampleLib "data" "golang" 1699000000 "231114221320"
      [.ok [("id", .string "bad")], .ok (examplePost "abc123" "t" 1700000000)]
      emptySubmissions).state.wrote = 0 ∧
    (submissionsPage id exampleLib "data" "golang" 1699000000 "231114221320"
      [.ok [("id", .string "bad")], .ok (examplePost "abc123" "t" 1700000000)]
      emptySubmissions).state.tree "data/r_golang/submissions/2023/1114/221320_abc123" =
      .missing ∧
    (submissionsPage id exampleLib "data" "golang" 1699000000 "231114221320"
      [.ok (examplePost "abc123" "t" 1700000000)] emptySubmissions).exitCode = none ∧
    (submissionsPage id exampleLib "data" "golang" 1699000000 "231114221320"
      [.ok (examplePost "abc123" "t" 1700000000)] emptySubmissions).state.wrote = 1 ∧
    (submissionsPage id exampleLib "data" "golang" 1699000000 "231114221320"
      [.ok (examplePost "abc123" "t" 1700000000)] emptySubmissions).state.tree
        "data/r_golang/submissions/2023/1114/221320_abc123" =
      .present
        [⟨"231114221320_6162633132337c747c0000000000000000000000000000000000000000000000.jsonl",
          false⟩] none ∧
    (commentsLoop exampleEnv exampleLib "data" "golang" exampleByPost ["abc123", "def456"]
      emptyComments).writes = 1 ∧
    (commentsLoop exampleEnv exampleLib "data" "golang" exampleByPost ["abc123", "def456"]
      emptyComments).tree "data/r_golang/comments/2023/1114/221321_def456" =
      .present
        [⟨"20231114231320_63317c68693b0000000000000000000000000000000000000000000000000000.jsonl",
          false⟩] none := by
  decide

/-! ## What the drivers pass to the dedup step -/

theorem hexDigit_mem (k : Nat) : Nat.digitChar (k % 16) ∈ "0123456789abcdef".data := by
  have h : k % 16 < 16 := Nat.mod_lt _ (by decide)
  generalize k % 16 = r at h
  interval_cases r <;> decide

theorem hexEncodeToString_length (bytes : List Nat) :
    (hexEncodeToString bytes).data.length = 2 * bytes.length := by
  unfold hexEncodeToString
  induction bytes with
  | nil => rfl
  | cons b t ih =>
    simp only [List.flatMap_cons, List.length_append, List.length_cons, List.length_nil] at ih ⊢
    omega

theorem hexEncodeToString_hex (bytes : List Nat) :
    ∀ c ∈ (hexEncodeToString bytes).data, c ∈ "0123456789abcdef".data := by
  unfold hexEncodeToString
  intro c hc
  simp only [List.mem_flatMap, List.mem_cons, List.mem_singleton, List.not_mem_nil,
    or_false] at hc
  obtain ⟨b, _, rfl | rfl⟩ := hc
  · exact hexDigit_mem _
  · exact hexDigit_mem _

/-- The hexadecimal form of a 32-byte sum is a fingerprint. -/
theorem isFingerprint_hexEncodeToString (bytes : List Nat) (h : bytes.length = 32) :
    isFingerprint (hexEncodeToString bytes) = true := by
  unfold isFingerprint
  rw [Bool.and_eq_true]
  constructor
  · rw [decide_eq_true_iff, hexEncodeToString_length, h]
  · rw [List.all_eq_true]
    intro c hc
    exact decide_eq_true (hexEncodeToString_hex bytes c hc)

/-- Whatever `subsetHash` returns is a fingerprint, for a 32-byte digest. -/
theorem isFingerprint_hashBytes {F : Type} (lib : Lib F) (hlen : ∀ b, (lib.Sum256 b).length = 32)
    (x : Except String String) (h : String) (hx : hashBytes lib x = .ok h) :
    isFingerprint h = true := by
  unfold hashBytes at hx
  cases x with
  | error e => cases hx
  | ok b =>
    simp only [Except.ok.injEq] at hx
    rw [← hx]
    exact isFingerprint_hexEncodeToString _ (hlen b)

theorem toDigitsCore_digits (fuel : Nat) :
    ∀ (n : Nat) (acc : List Char), (∀ c ∈ acc, c ∈ "0123456789".data) →
      ∀ c ∈ Nat.toDigitsCore 10 fuel n acc, c ∈ "0123456789".data := by
  induction fuel with
  | zero =>
    intro n acc hacc c hc
    simp only [Nat.toDigitsCore] at hc
    exact hacc c hc
  | succ k ih =>
    intro n acc hacc c hc
    rw [toDigitsCore_succ] at hc
    have hacc2 : ∀ c ∈ (n % 10).digitChar :: acc, c ∈ "0123456789".data := by
      intro c hc
      rcases List.mem_cons.mp hc with h | h
      · rw [h]; exact digitChar_mod_mem n
      · exact hacc c h
    split_ifs at hc
    · exact hacc2 c hc
    · exact ih _ _ hacc2 c hc

theorem appendInt_digits (x : Int) (width : Nat) (hx : 0 ≤ x) :
    ∀ c ∈ (gotime.appendInt x width).data, c ∈ "0123456789".data := by
  intro c hc
  unfold gotime.appendInt at hc
  have hneg : ¬ x < 0 := by omega
  simp only [hneg, if_false, List.nil_append, List.mem_append] at hc
  rcases hc with h | h
  · rw [List.eq_of_mem_replicate h]
    decide
  · exact toDigitsCore_digits _ _ [] (by intro c hc; simp at hc) c h

/-- The capture timestamp of the submissions driver consists of decimal digits. -/
theorem isDigits_format060102150405 (now : Int) :
    isDigits (gotime.format060102150405 (gotime.UnixUTC now)) = true := by
  have hb := UnixUTC_bounds now
  unfold isDigits
  rw [List.all_eq_true]
  intro c hc
  apply decide_eq_true
  unfold gotime.format060102150405 gotime.format0102 gotime.format150405 at hc
  simp only [String.data_append, List.mem_append] at hc
  rcases hc with (h | h | h) | (h | h) | h
  · exact appendInt_digits _ _ (Int.ofNat_nonneg _) c h
  · exact appendInt_digits _ _ (by omega) c h
  · exact appendInt_digits _ _ (by omega) c h
  · exact appendInt_digits _ _ (by omega) c h
  · exact appendInt_digits _ _ (by omega) c h
  · exact appendInt_digits _ _ (by omega) c h

/-- The capture timestamp of the comments driver consists of decimal digits, for
a clock reading in a year that is not negative. -/
theorem isDigits_format20060102150405 (now : Int) (hy : 0 ≤ (gotime.UnixUTC now).year) :
    isDigits (gotime.format20060102150405 (gotime.UnixUTC now)) = true := by
  have hb := UnixUTC_bounds now
  unfold isDigits
  rw [List.all_eq_true]
  intro c hc
  apply decide_eq_true
  unfold gotime.format20060102150405 gotime.format2006 gotime.format0102
    gotime.format150405 at hc
  simp only [String.data_append, List.mem_append] at hc
  rcases hc with (h | h | h) | (h | h) | h
  · exact appendInt_digits _ _ hy c h
  · exact appendInt_digits _ _ (by omega) c h
  · exact appendInt_digits _ _ (by omega) c h
  · exact appendInt_digits _ _ (by omega) c h
  · exact appendInt_digits _ _ (by omega) c h
  · exact appendInt_digits _ _ (by omega) c h

/-! ## The dedup invariant along the two drivers, on directories that can be listed -/

theorem DedupInv_nil : DedupInv [] := by
  intro f _
  exact Nat.zero_le _

theorem mkdirAll_inv (s : DirState) (h : s.listable = true ∧ DedupInv s.entries) :
    (mkdirAll s).listable = true ∧ DedupInv (mkdirAll s).entries := by
  cases s with
  | missing => exact ⟨rfl, DedupInv_nil⟩
  | present d l => exact h

theorem writeFile_EMPTY_inv (s : DirState) (h : s.listable = true ∧ DedupInv s.entries) :
    (writeFile s "EMPTY.txt").listable = true ∧ DedupInv (writeFile s "EMPTY.txt").entries := by
  cases s with
  | missing => exact h
  | present d l =>
    unfold writeFile
    simp only
    split_ifs
    · exact h
    · refine ⟨?_, ?_⟩
      · cases l with
        | none => rfl
        | some err => exact absurd h.1 (by simp [DirState.listable])
      · intro f hf
        show (snapshotsOf (d ++ [⟨"EMPTY.txt", false⟩]) f).length ≤ 1
        rw [snapshotsOf_append]
        have hnew : snapshotsOf [(⟨"EMPTY.txt", false⟩ : DirEntry)] f = [] := by
          unfold snapshotsOf
          rw [List.filter_eq_nil_iff]
          intro e he
          simp only [List.mem_singleton] at he
          subst he
          have hs : strings.HasSuffix "EMPTY.txt" ".jsonl" = false := by decide
          simp [hs]
        rw [hnew, List.append_nil]
        exact h.2 f hf

theorem Tree_set_inv (t : Tree) (dir : String) (s : DirState)
    (ht : ∀ p, (t p).listable = true ∧ DedupInv (t p).entries)
    (hs : s.listable = true ∧ DedupInv s.entries) :
    ∀ p, (t.set dir s p).listable = true ∧ DedupInv (t.set dir s p).entries := by
  intro p
  unfold Tree.set
  split_ifs
  · exact hs
  · exact ht p

theorem Tree_set_same (t : Tree) (dir : String) (s : DirState) : t.set dir s dir = s := by
  simp [Tree.set]

theorem dedupStep_inv_both (dir : String) (s : DirState) (nowStr h : String)
    (hts : isDigits nowStr = true) (hh : isFingerprint h = true)
    (hs : s.listable = true ∧ DedupInv s.entries) :
    (dedupStep dir s nowStr h).1.listable = true ∧
      DedupInv (dedupStep dir s nowStr h).1.entries :=
  ⟨by rw [dedupStep_listable]; exact hs.1, dedupStep_inv dir s nowStr h hts hh hs.1 hs.2⟩

/-- The per-entity step of the comments driver keeps the dedup invariant in a tree
whose directories can be listed. -/
theorem commentsStep_preserves_DedupInv {F : Type} [LinearOrder F] [Zero F]
    (env : CommentsEnv F) (lib : Lib F) (root sub : String)
    (byPost : String → Option capInfo) (st : CommentsState) (pid : String)
    (hlen : ∀ b, (lib.Sum256 b).length = 32)
    (hclock : 0 ≤ (gotime.UnixUTC (env.now pid)).year)
    (hinv : ∀ p, (st.tree p).listable = true ∧ DedupInv (st.tree p).entries) :
    ∀ p, ((commentsStep env lib root sub byPost st pid).tree p).listable = true ∧
      DedupInv ((commentsStep env lib root sub byPost st pid).tree p).entries := by
  unfold commentsStep
  cases byPost pid with
  | none => exact hinv
  | some info =>
    simp only
    cases readOneSubmission env.readFile info.Path with
    | error e => exact hinv
    | ok r =>
      obtain ⟨sl, cap⟩ := r
      simp only
      generalize filepath.Join [layout.Base root sub, "comments",
        layout.ThreadRel info.CreatedUnix sl.ID] = dir
      have hinv1 : ∀ p, ((st.tree.set dir (mkdirAll (st.tree dir))) p).listable = true ∧
          DedupInv ((st.tree.set dir (mkdirAll (st.tree dir))) p).entries :=
        Tree_set_inv _ _ _ hinv (mkdirAll_inv _ (hinv dir))
      generalize st.tree.set dir (mkdirAll (st.tree dir)) = t1 at hinv1 ⊢
      cases fetchCommentsTree (env.fetch sl.ID) with
      | error e => exact hinv1
      | ok rows =>
        simp only
        split_ifs
        · exact Tree_set_inv _ _ _ hinv1 (writeFile_EMPTY_inv _ (hinv1 _))
        · cases hh : threadHash lib rows with
          | error e => exact hinv1
          | ok h =>
            simp only
            have hfp : isFingerprint h = true := isFingerprint_hashBytes lib hlen _ h hh
            have hts := isDigits_format20060102150405 (env.now pid) hclock
            have hstep := dedupStep_inv_both dir (t1 dir)
              (gotime.format20060102150405 (gotime.UnixUTC (env.now pid))) h hts hfp (hinv1 _)
            rcases dedupStep_cases dir (t1 dir)
              (gotime.format20060102150405 (gotime.UnixUTC (env.now pid))) h
              with ⟨_, heq⟩ | ⟨_, _, heq⟩ | ⟨_, _, _, _, _, heq⟩ | ⟨_, _, _, _, _, heq⟩
            · rw [heq]; exact hinv1
            · rw [heq]; exact hinv1
            · rw [heq]; exact hinv1
            · rw [heq] at hstep
              rw [heq]
              exact Tree_set_inv _ _ _ hinv1 hstep

/-- The page loop of the submissions driver keeps the dedup invariant in a tree
whose directories can be listed. -/
theorem submissionsPage_preserves_DedupInv {F : Type} (toInt64 : F → Int) (lib : Lib F)
    (root sub : String) (cutoff : Int) (nowStr : String)
    (hlen : ∀ b, (lib.Sum256 b).length = 32) (hts : isDigits nowStr = true) :
    ∀ (cs : List (Except String (GoMap F))) (st : SubmissionsState),
      (∀ p, (st.tree p).listable = true ∧ DedupInv (st.tree p).entries) →
      ∀ p, ((submissionsPage toInt64 lib root sub cutoff nowStr cs st).state.tree p).listable
          = true ∧
        DedupInv ((submissionsPage toInt64 lib root sub cutoff nowStr cs st).state.tree
          p).entries := by
  intro cs
  induction cs with
  | nil =>
    intro st hinv
    exact hinv
  | cons c t ih =>
    intro st hinv
    unfold submissionsPage
    cases createdIDName toInt64 c with
    | error e => exact hinv
    | ok r =>
      obtain ⟨created, id, name⟩ := r
      simp only
      have hinv1 : ∀ p, ((if name ≠ "" then { st with nextAfter := name } else st).tree
          p).listable = true ∧
          DedupInv ((if name ≠ "" then { st with nextAfter := name } else st).tree p).entries := by
        split_ifs
        · exact hinv
        · exact hinv
      generalize (if name ≠ "" then { st with nextAfter := name } else st) = st1 at hinv1 ⊢
      split_ifs
      · exact hinv1
      · generalize filepath.Join [layout.Base root sub, "submissions",
          layout.ThreadRel created id] = dir
        have hinv2 : ∀ p, ((st1.tree.set dir (mkdirAll (st1.tree dir))) p).listable = true ∧
            DedupInv ((st1.tree.set dir (mkdirAll (st1.tree dir))) p).entries :=
          Tree_set_inv _ _ _ hinv1 (mkdirAll_inv _ (hinv1 dir))
        cases hh : subsetHash lib c with
        | error e => exact hinv2
        | ok h =>
          simp only
          have hfp : isFingerprint h = true := by
            cases c with
            | error e => cases hh
            | ok m => exact isFingerprint_hashBytes lib hlen _ h hh
          have hstep := dedupStep_inv_both dir
            ((st1.tree.set dir (mkdirAll (st1.tree dir))) dir) nowStr h hts hfp (hinv2 _)
          rcases dedupStep_cases dir ((st1.tree.set dir (mkdirAll (st1.tree dir))) dir) nowStr h
            with ⟨_, heq⟩ | ⟨_, _, heq⟩ | ⟨_, _, _, _, _, heq⟩ | ⟨_, _, _, _, _, heq⟩
          · rw [heq]; exact ih _ hinv2
          · rw [heq]; exact hinv2
          · rw [heq]; exact ih _ hinv2
          · rw [heq] at hstep
            rw [heq]
            exact ih _ (Tree_set_inv _ _ _ hinv2 hstep)

/-! ## The models evaluated on examples -/

/-- The selection keeps the capture inside the window and drops unreadable files. -/
theorem selectLatest_example :
    selectLatest id exampleEnv.readFile 1699000000
        ["r/def456.jsonl", "r/abc123.jsonl", "r/zzz.jsonl"] "abc123" =
      some ⟨"r/abc123.jsonl", 1700000000, "abc123"⟩ ∧
    selectLatest id exampleEnv.readFile 1700000001
        ["r/def456.jsonl", "r/abc123.jsonl", "r/zzz.jsonl"] "abc123" = none := by
  decide

/-- Rows with equal sort keys keep the order of the fetch: the sort is stable. -/
theorem sortFlat_stable_example :
    (sortFlat ([[("parent_id", .string "p"), ("id", .string "x"), ("body", .string "first")],
        [("parent_id", .string "p"), ("id", .string "x"), ("body", .string "second")],
        [("parent_id", .string "a"), ("id", .string "y"), ("body", .string "third")]] :
        List (GoMap Int))).map (fun r => getS (r.index "body")) =
      ["third", "first", "second"] := by
  decide

/-- A run of the comments loop: the post whose fetch fails is skipped, the next
one is written, and a second pass over it is a skip. -/
theorem commentsLoop_example :
    (commentsLoop exampleEnv exampleLib "data" "golang" exampleByPost ["abc123", "def456"]
      emptyComments).writes = 1 ∧
    ((commentsLoop exampleEnv exampleLib "data" "golang" exampleByPost ["abc123", "def456"]
      emptyComments).tree "data/r_golang/comments/2023/1114/221321_def456").entries.map
        DirEntry.Name =
      ["20231114231320_63317c68693b0000000000000000000000000000000000000000000000000000.jsonl"] ∧
    (commentsLoop exampleEnv exampleLib "data" "golang" exampleByPost ["def456", "def456"]
      emptyComments).writes = 1 ∧
    (commentsLoop exampleEnv exampleLib "data" "golang" exampleByPost ["def456", "def456"]
      emptyComments).skips = 1 := by
  decide

/-- Dates of the calendar model. -/
theorem UnixUTC_examples :
    gotime.UnixUTC 0 = ⟨1970, 1, 1, 0, 0, 0⟩ ∧
    gotime.UnixUTC 951782399 = ⟨2000, 2, 28, 23, 59, 59⟩ ∧
    gotime.UnixUTC 951782400 = ⟨2000, 2, 29, 0, 0, 0⟩ ∧
    gotime.UnixUTC 1709251199 = ⟨2024, 2, 29, 23, 59, 59⟩ ∧
    gotime.UnixUTC 4107542400 = ⟨2100, 3, 1, 0, 0, 0⟩ ∧
    gotime.UnixUTC 253402300799 = ⟨9999, 12, 31, 23, 59, 59⟩ ∧
    gotime.UnixUTC (-1) = ⟨1969, 12, 31, 23, 59, 59⟩ := by
  decide

/-- Paths of the `filepath` model. -/
theorem filepath_examples :
    filepath.Join ["data/reddit/00_raw", "r_golang"] = "data/reddit/00_raw/r_golang" ∧
    filepath.Join ["a/", "", "../b", "."] = "b" ∧
    filepath.Join ["/", "..", "x"] = "/x" ∧
    filepath.Join ["", ""] = "" ∧
    filepath.Clean "../../a/.." = "../.." ∧
    filepath.Base "a/b/c.jsonl" = "c.jsonl" ∧
    filepath.Base "a/b/" = "b" ∧
    filepath.Base "///" = "/" ∧
    strings.TrimSuffix (filepath.Base "a/231114221320_ab.jsonl") ".jsonl" = "231114221320_ab" := by
  decide

end Harvest
